import Mathlib

/-!
Verification of the terminal table renderer in `src/table.ts` of the
`dbcat` repository.

The renderer is shallowly embedded as follows.

* A JavaScript string is modelled as a list of `Glyph`s.  A glyph carries
  its code point and its terminal display width (`Bun.stringWidth`
  semantics: ordinary characters have width 1, CJK/emoji glyphs width 2,
  characters of ANSI escape sequences width 0).  String slicing is
  modelled at glyph granularity; `Bun.stringWidth` is the sum of the
  glyph widths.
* `while` loops of the source are modelled by structural recursion on an
  explicit fuel argument; the fuel passed at each call site is the bound
  that makes the corresponding JavaScript loop terminate (the loop's
  strictly decreasing natural measure), so the fueled function computes
  exactly the value of the loop.
* `Math.sqrt` (used only to weight the width-compression fair shares) is
  modelled by the integer square root `jsSqrt`; the theorems about the
  compression step depend only on the clamping structure around the fair
  shares, never on the numeric value of the square roots, and every
  concrete evaluation below that reaches the compression step uses a
  single visible column, where the fair share is `floor(1 * available)`
  under both `Math.sqrt` and `jsSqrt`.
* Fallible constructs are made explicit: `printTable` returns
  `Except Unit (List JsStr)`, with `.error ()` exactly on the inputs
  where the JavaScript code throws (`Object.keys(undefined)` when the
  row cap empties the displayed rows, and `"─".repeat(negative)` on the
  trailer's bottom border).
-/

/-- One terminal glyph: a code point together with its display width. -/
structure Glyph where
  code : Nat
  w : Nat
deriving DecidableEq, Repr

/-- A JavaScript string, at glyph granularity. -/
abbrev JsStr := List Glyph

/-- `Bun.stringWidth`: the display width of a string. -/
def strWidth (s : JsStr) : Nat := (s.map Glyph.w).sum

/-- Embed an ASCII string literal (every character has display width 1). -/
def asc (s : String) : JsStr := s.toList.map (fun c => ⟨c.toNat, 1⟩)

/-- The space character. -/
def spaceG : Glyph := ⟨32, 1⟩

/-- The ellipsis glyph `…` appended by `truncate` (display width 1). -/
def ellipsisG : Glyph := ⟨0x2026, 1⟩

/-- A character of an ANSI escape sequence: display width 0. -/
def escG (c : Nat) : Glyph := ⟨c, 0⟩

/-- The `RESET` escape sequence `\x1b[0m` (table.ts line 1). -/
def RESETg : JsStr := [escG 27, escG 91, escG 48, escG 109]

/-- The `DIM` escape sequence `\x1b[2m` (table.ts line 2). -/
def DIMg : JsStr := [escG 27, escG 91, escG 50, escG 109]

/-- The `BOLD` escape sequence `\x1b[1m` (table.ts line 3). -/
def BOLDg : JsStr := [escG 27, escG 91, escG 49, escG 109]

@[simp] theorem strWidth_nil : strWidth [] = 0 := rfl

@[simp] theorem strWidth_append (a b : JsStr) :
    strWidth (a ++ b) = strWidth a + strWidth b := by
  simp [strWidth]

@[simp] theorem strWidth_cons (g : Glyph) (s : JsStr) :
    strWidth (g :: s) = g.w + strWidth s := by
  simp [strWidth]

@[simp] theorem strWidth_RESETg : strWidth RESETg = 0 := rfl

@[simp] theorem strWidth_DIMg : strWidth DIMg = 0 := rfl

@[simp] theorem strWidth_BOLDg : strWidth BOLDg = 0 := rfl

@[simp] theorem strWidth_replicate (n : Nat) (g : Glyph) :
    strWidth (List.replicate n g) = n * g.w := by
  induction n with
  | zero => simp
  | succ n ih => simp [List.replicate_succ, ih, Nat.succ_mul, Nat.add_comm]

/-- The binary-search loop inside `truncate` (table.ts lines 41–51):
`while (low < high)` keeps the invariant that the prefix of length `low`
still leaves room for the ellipsis.  The loop terminates because
`high - low` strictly decreases; that measure is the fuel. -/
def truncGo (s : JsStr) (maxW : Nat) : Nat → Nat → Nat → Nat
  | 0, low, _ => low
  | fuel + 1, low, high =>
    if low < high then
      let mid := (low + high + 1) / 2
      if strWidth (s.take mid) + 1 ≤ maxW then truncGo s maxW fuel mid high
      else truncGo s maxW fuel low (mid - 1)
    else low

/-- `truncate` (table.ts lines 35–55): return the string unchanged if it
fits, otherwise binary-search the longest prefix whose width plus one
(for the ellipsis) fits, and append `…` (plus `RESET` when ANSI colors
are enabled). -/
def truncate (ansi : Bool) (s : JsStr) (maxW : Nat) : JsStr :=
  if strWidth s ≤ maxW then s
  else
    let low := truncGo s maxW s.length 0 s.length
    let t := s.take low ++ [ellipsisG]
    if ansi then t ++ RESETg else t

/-- `padRight` (table.ts lines 57–63). -/
def padRight (s : JsStr) (width : Nat) : JsStr :=
  if width ≤ strWidth s then s
  else s ++ List.replicate (width - strWidth s) spaceG

/-- `padLeft` (table.ts lines 65–71). -/
def padLeft (s : JsStr) (width : Nat) : JsStr :=
  if width ≤ strWidth s then s
  else List.replicate (width - strWidth s) spaceG ++ s

theorem truncGo_inv (s : JsStr) (maxW : Nat) :
    ∀ fuel low high, strWidth (s.take low) + 1 ≤ maxW →
      strWidth (s.take (truncGo s maxW fuel low high)) + 1 ≤ maxW := by
  intro fuel
  induction fuel with
  | zero => intro low high h; simpa [truncGo] using h
  | succ n ih =>
    intro low high h
    by_cases hlt : low < high
    · by_cases hc : strWidth (s.take ((low + high + 1) / 2)) + 1 ≤ maxW
      · simpa [truncGo, hlt, hc] using ih _ _ hc
      · simpa [truncGo, hlt, hc] using ih _ _ h
    · simpa [truncGo, hlt] using h

theorem truncGo_maxW_zero (s : JsStr) :
    ∀ fuel low high, truncGo s 0 fuel low high = low := by
  intro fuel
  induction fuel with
  | zero => intro low high; rfl
  | succ n ih =>
    intro low high
    by_cases hlt : low < high
    · simp [truncGo, hlt, ih]
    · simp [truncGo, hlt]

theorem truncate_of_le {s : JsStr} {maxW : Nat} (ansi : Bool)
    (h : strWidth s ≤ maxW) : truncate ansi s maxW = s := by
  simp [truncate, h]

/-- Core width bound for `truncate`: whenever at least one display column
is available, the result fits. -/
theorem truncate_width_le (ansi : Bool) (s : JsStr) {maxW : Nat}
    (h : 1 ≤ maxW) : strWidth (truncate ansi s maxW) ≤ maxW := by
  by_cases hfit : strWidth s ≤ maxW
  · simpa [truncate_of_le ansi hfit] using hfit
  · have hbase : strWidth (s.take 0) + 1 ≤ maxW := by simpa using h
    have hlow := truncGo_inv s maxW s.length 0 s.length hbase
    cases ansi with
    | false =>
      simp only [truncate, hfit, if_false, if_neg, Bool.false_eq_true]
      simpa [strWidth, ellipsisG] using hlow
    | true =>
      simp only [truncate, hfit, if_false]
      simpa [strWidth, ellipsisG, RESETg, escG] using hlow

/-- C5, amended half: with `maxW = 0` and a non-fitting input, `truncate`
still emits the bare ellipsis. -/
theorem truncate_maxW_zero (ansi : Bool) (s : JsStr)
    (h : ¬ strWidth s ≤ 0) :
    truncate ansi s 0 =
      ([ellipsisG] ++ if ansi then RESETg else []) := by
  cases ansi <;> simp [truncate, h, truncGo_maxW_zero]

/-- C5: the claim fails at `maxWidth = 0`: truncating `"ab"` to width 0
produces the one-column-wide ellipsis string. -/
theorem c5_counterexample :
    truncate false (asc "ab") 0 = [ellipsisG] ∧
      ¬ strWidth (truncate false (asc "ab") 0) ≤ 0 := by
  constructor
  · rfl
  · decide

/-- C5 (amended): for every string and every `maxWidth ≥ 1`, the result of
`truncate` has display width at most `maxWidth`; and whenever the text
already fits, it is returned unchanged (the second half holds for every
`maxWidth`, including 0). -/
theorem c5_truncate_bound (ansi : Bool) (s : JsStr) (maxW : Nat)
    (h : 1 ≤ maxW) :
    strWidth (truncate ansi s maxW) ≤ maxW ∧
      (strWidth s ≤ maxW → truncate ansi s maxW = s) :=
  ⟨truncate_width_le ansi s h, fun hf => truncate_of_le ansi hf⟩

theorem c5_truncate_bound_witness :
    strWidth (truncate false (asc "hello") 3) ≤ 3 ∧
      (strWidth (asc "hello") ≤ 3 → truncate false (asc "hello") 3 = asc "hello") :=
  c5_truncate_bound false (asc "hello") 3 (by decide)

/-- C8: `truncate` is idempotent at every width, for both color modes. -/
theorem c8_truncate_idempotent (ansi : Bool) (s : JsStr) (w : Nat) :
    truncate ansi (truncate ansi s w) w = truncate ansi s w := by
  by_cases hfit : strWidth s ≤ w
  · rw [truncate_of_le ansi hfit, truncate_of_le ansi hfit]
  · by_cases hw : 1 ≤ w
    · exact truncate_of_le ansi (truncate_width_le ansi s hw)
    · have hw0 : w = 0 := by omega
      subst hw0
      rw [truncate_maxW_zero ansi s hfit]
      have h1 : ¬ strWidth ([ellipsisG] ++ if ansi then RESETg else []) ≤ 0 := by
        cases ansi <;> decide
      rw [truncate_maxW_zero ansi _ h1]

/-- Newline collapsing at the top of `wrapLines` (table.ts line 82):
`str.split(/\n/g).join(" ")` replaces every newline with one space. -/
def collapseNewlines (s : JsStr) : JsStr :=
  s.map (fun g => if g.code = 10 then spaceG else g)

/-- Space test used by the tokenizer regex `/([ ]+)/`. -/
def isSpaceG (g : Glyph) : Bool := g.code = 32

/-- Longest prefix of glyphs satisfying `p`, together with the rest. -/
def takeRun (p : Glyph → Bool) : JsStr → JsStr × JsStr
  | [] => ([], [])
  | g :: rest =>
    if p g then
      let r := takeRun p rest
      (g :: r.1, r.2)
    else ([], g :: rest)

/-- `str.split(/([ ]+)/)` (table.ts line 88): alternating non-space and
space-run tokens, the captured space runs included, with a possibly empty
leading chunk when the string starts with spaces (exact JavaScript
`String.split` behaviour with a capturing group).  Fueled by the string
length: every loop step consumes the nonempty space run. -/
def splitSpGo : Nat → JsStr → List JsStr
  | 0, s => [s]
  | fuel + 1, s =>
    let r := takeRun (fun g => ! isSpaceG g) s
    match r.2 with
    | [] => [r.1]
    | _ :: _ =>
      let r2 := takeRun isSpaceG r.2
      r.1 :: r2.1 :: splitSpGo fuel r2.2

/-- Tokenization entry point for `wrapLines`. -/
def splitSp (s : JsStr) : List JsStr := splitSpGo s.length s

/-- The hard-split scan of `wrapLines` (table.ts lines 98–101):
`cutPoint` starts at 1 and advances while the prefix is strictly below
`maxWidth`.  Fueled by the fragment length. -/
def cutPointGo (frag : JsStr) (maxW : Nat) : Nat → Nat → Nat
  | 0, c => c
  | fuel + 1, c =>
    if c < frag.length ∧ strWidth (frag.take c) < maxW then
      cutPointGo frag maxW fuel (c + 1)
    else c

/-- The inner `while (fragment.length > 0)` of `wrapLines` (table.ts
lines 91–109), processing one token.  Returns the lines pushed and the
new `current` accumulator.  The fuel `2 * fragment.length + 1` bounds the
loop: each hard split strictly shrinks the fragment and the
flush-current step can happen at most once before a shrink. -/
def wrapTok (maxW : Nat) : Nat → JsStr → JsStr → List JsStr × JsStr
  | 0, current, _ => ([], current)
  | fuel + 1, current, frag =>
    if frag = [] then ([], current)
    else if maxW < strWidth (current ++ frag) then
      if current = [] then
        let c := cutPointGo frag maxW frag.length 1
        let r := wrapTok maxW fuel [] (frag.drop c)
        (frag.take c :: r.1, r.2)
      else
        let r := wrapTok maxW fuel [] frag
        (current :: r.1, r.2)
    else ([], current ++ frag)

/-- One iteration of the token loop of `wrapLines` (table.ts lines
89–114): run the fragment loop, then flush `current` when its width has
reached `maxWidth` (line 110). -/
def wrapStep (maxW : Nat) (acc : List JsStr × JsStr) (tok : JsStr) :
    List JsStr × JsStr :=
  let r := wrapTok maxW (2 * tok.length + 1) acc.2 tok
  let lines := acc.1 ++ r.1
  if maxW ≤ strWidth r.2 then (lines ++ [r.2], []) else (lines, r.2)

/-- `wrapLines` (table.ts lines 80–120). -/
def wrapLines (s : JsStr) (maxW : Nat) : List JsStr :=
  let raw := collapseNewlines s
  if raw = [] then [[]]
  else
    let r := (splitSp raw).foldl (wrapStep maxW) ([], [])
    if r.2 = [] then r.1 else r.1 ++ [r.2]

theorem takeRun_eq (p : Glyph → Bool) :
    ∀ s : JsStr, (takeRun p s).1 ++ (takeRun p s).2 = s := by
  intro s
  induction s with
  | nil => rfl
  | cons g rest ih =>
    by_cases hp : p g
    · simp [takeRun, hp, ih]
    · simp [takeRun, hp]

theorem takeRun_width_left (p : Glyph → Bool) (s : JsStr) :
    strWidth (takeRun p s).1 ≤ strWidth s := by
  conv_rhs => rw [← takeRun_eq p s]
  simp

theorem takeRun_width_right (p : Glyph → Bool) (s : JsStr) :
    strWidth (takeRun p s).2 ≤ strWidth s := by
  conv_rhs => rw [← takeRun_eq p s]
  simp

theorem takeRun_mem_left (p : Glyph → Bool) (s : JsStr) {g : Glyph}
    (h : g ∈ (takeRun p s).1) : g ∈ s := by
  rw [← takeRun_eq p s]
  exact List.mem_append_left _ h

theorem takeRun_mem_right (p : Glyph → Bool) (s : JsStr) {g : Glyph}
    (h : g ∈ (takeRun p s).2) : g ∈ s := by
  rw [← takeRun_eq p s]
  exact List.mem_append_right _ h

theorem splitSpGo_tok (fuel : Nat) :
    ∀ s : JsStr, ∀ tok ∈ splitSpGo fuel s,
      (∀ g ∈ tok, g ∈ s) ∧ strWidth tok ≤ strWidth s := by
  induction fuel with
  | zero =>
    intro s tok htok
    simp only [splitSpGo, List.mem_singleton] at htok
    subst htok
    exact ⟨fun g hg => hg, le_refl _⟩
  | succ n ih =>
    intro s tok htok
    simp only [splitSpGo] at htok
    set r := takeRun (fun g => ! isSpaceG g) s with hr
    rcases h2 : r.2 with _ | ⟨g0, rest⟩
    · rw [h2] at htok
      simp only [List.mem_singleton] at htok
      subst htok
      exact ⟨fun g hg => takeRun_mem_left _ s hg, takeRun_width_left _ s⟩
    · rw [h2] at htok
      set r2 := takeRun isSpaceG (g0 :: rest) with hr2
      simp only [List.mem_cons] at htok
      rcases htok with h | h | h
      · subst h
        exact ⟨fun g hg => takeRun_mem_left _ s hg, takeRun_width_left _ s⟩
      · subst h
        refine ⟨fun g hg => ?_, ?_⟩
        · have : g ∈ (g0 :: rest) := takeRun_mem_left _ _ hg
          rw [← h2] at this
          exact takeRun_mem_right _ s this
        · calc strWidth r2.1 ≤ strWidth (g0 :: rest) := takeRun_width_left _ _
            _ = strWidth r.2 := by rw [h2]
            _ ≤ strWidth s := takeRun_width_right _ s
      · obtain ⟨hmem, hwidth⟩ := ih r2.2 tok h
        refine ⟨fun g hg => ?_, ?_⟩
        · have : g ∈ (g0 :: rest) := takeRun_mem_right _ _ (hmem g hg)
          rw [← h2] at this
          exact takeRun_mem_right _ s this
        · calc strWidth tok ≤ strWidth r2.2 := hwidth
            _ ≤ strWidth (g0 :: rest) := takeRun_width_right _ _
            _ = strWidth r.2 := by rw [h2]
            _ ≤ strWidth s := takeRun_width_right _ s

theorem strWidth_take_succ_le (s : JsStr) (hg : ∀ g ∈ s, g.w ≤ 2) :
    ∀ c : Nat, strWidth (s.take (c + 1)) ≤ strWidth (s.take c) + 2 := by
  induction s with
  | nil => intro c; simp
  | cons g t ih =>
    intro c
    have hgw : g.w ≤ 2 := hg g (List.mem_cons_self g t)
    have ht : ∀ g ∈ t, g.w ≤ 2 := fun x hx => hg x (List.mem_cons_of_mem g hx)
    cases c with
    | zero => simpa using hgw
    | succ c =>
      simp only [List.take_succ_cons, strWidth_cons]
      have := ih ht c
      omega

theorem cutPointGo_spec (frag : JsStr) (maxW : Nat) :
    ∀ fuel c, 1 ≤ c → (c = 1 ∨ strWidth (frag.take (c - 1)) < maxW) →
      1 ≤ cutPointGo frag maxW fuel c ∧
        (cutPointGo frag maxW fuel c = 1 ∨
          strWidth (frag.take (cutPointGo frag maxW fuel c - 1)) < maxW) := by
  intro fuel
  induction fuel with
  | zero => intro c hc h; exact ⟨hc, h⟩
  | succ n ih =>
    intro c hc h
    by_cases hcond : c < frag.length ∧ strWidth (frag.take c) < maxW
    · have : cutPointGo frag maxW (n + 1) c = cutPointGo frag maxW n (c + 1) := by
        simp [cutPointGo, hcond]
      rw [this]
      exact ih (c + 1) (by omega) (Or.inr (by simpa using hcond.2))
    · have : cutPointGo frag maxW (n + 1) c = c := by
        simp only [cutPointGo, if_neg hcond]
      rw [this]
      exact ⟨hc, h⟩

theorem strWidth_take_one_le (s : JsStr) (hg : ∀ g ∈ s, g.w ≤ 2) :
    strWidth (s.take 1) ≤ 2 := by
  cases s with
  | nil => simp
  | cons g t => simpa using hg g (List.mem_cons_self g t)

/-- Width bound for a hard-split line: it may overshoot `maxW` by at most
one display column (a double-width glyph straddling the boundary), and
is never wider than a single glyph when `maxW = 0`. -/
theorem cutPoint_width_le (frag : JsStr) (maxW : Nat)
    (hg : ∀ g ∈ frag, g.w ≤ 2) :
    strWidth (frag.take (cutPointGo frag maxW frag.length 1)) ≤
      max (maxW + 1) 2 := by
  obtain ⟨h1, h2⟩ := cutPointGo_spec frag maxW frag.length 1 (le_refl 1) (Or.inl rfl)
  set c := cutPointGo frag maxW frag.length 1 with hc
  rcases h2 with h | h
  · rw [h]
    exact le_trans (strWidth_take_one_le frag hg) (le_max_right _ _)
  · have hsucc : c - 1 + 1 = c := by omega
    have := strWidth_take_succ_le frag hg (c - 1)
    rw [hsucc] at this
    have : strWidth (frag.take c) ≤ maxW + 1 := by omega
    exact le_trans this (le_max_left _ _)

theorem wrapTok_spec (maxW : Nat) :
    ∀ fuel current frag, strWidth current ≤ maxW → (∀ g ∈ frag, g.w ≤ 2) →
      (∀ l ∈ (wrapTok maxW fuel current frag).1, strWidth l ≤ max (maxW + 1) 2) ∧
        strWidth (wrapTok maxW fuel current frag).2 ≤ maxW := by
  intro fuel
  induction fuel with
  | zero =>
    intro current frag hcur _
    exact ⟨by simp [wrapTok], by simpa [wrapTok] using hcur⟩
  | succ n ih =>
    intro current frag hcur hfrag
    by_cases hnil : frag = []
    · subst hnil
      exact ⟨by simp [wrapTok], by simpa [wrapTok] using hcur⟩
    · by_cases hover : maxW < strWidth (current ++ frag)
      · by_cases hce : current = []
        · subst hce
          have hover2 : maxW < strWidth frag := by simpa using hover
          have hdrop : ∀ g ∈ frag.drop (cutPointGo frag maxW frag.length 1), g.w ≤ 2 :=
            fun g hgmem => hfrag g (List.mem_of_mem_drop hgmem)
          obtain ⟨hl, hc2⟩ := ih [] (frag.drop (cutPointGo frag maxW frag.length 1))
            (by simp) hdrop
          have heq : wrapTok maxW (n + 1) [] frag =
              (frag.take (cutPointGo frag maxW frag.length 1) ::
                (wrapTok maxW n [] (frag.drop (cutPointGo frag maxW frag.length 1))).1,
               (wrapTok maxW n [] (frag.drop (cutPointGo frag maxW frag.length 1))).2) := by
            simp [wrapTok, hnil, hover2]
          rw [heq]
          refine ⟨?_, hc2⟩
          intro l hl2
          rcases List.mem_cons.1 hl2 with h | h
          · subst h; exact cutPoint_width_le frag maxW hfrag
          · exact hl l h
        · obtain ⟨hl, hc2⟩ := ih [] frag (by simp) hfrag
          have hover2 : maxW < strWidth current + strWidth frag := by simpa using hover
          have heq : wrapTok maxW (n + 1) current frag =
              (current :: (wrapTok maxW n [] frag).1, (wrapTok maxW n [] frag).2) := by
            simp [wrapTok, hnil, hover2, hce]
          rw [heq]
          refine ⟨?_, hc2⟩
          intro l hl2
          rcases List.mem_cons.1 hl2 with h | h
          · subst h; exact le_trans hcur (le_trans (Nat.le_succ _) (le_max_left _ _))
          · exact hl l h
      · have hover2 : ¬ maxW < strWidth current + strWidth frag := by simpa using hover
        have heq : wrapTok maxW (n + 1) current frag = ([], current ++ frag) := by
          simp [wrapTok, hnil, hover2]
        rw [heq]
        exact ⟨by simp, by simp only [strWidth_append]; omega⟩

theorem wrapStep_spec (maxW : Nat) (acc : List JsStr × JsStr) (tok : JsStr)
    (hacc : (∀ l ∈ acc.1, strWidth l ≤ max (maxW + 1) 2) ∧ strWidth acc.2 ≤ maxW)
    (htok : ∀ g ∈ tok, g.w ≤ 2) :
    (∀ l ∈ (wrapStep maxW acc tok).1, strWidth l ≤ max (maxW + 1) 2) ∧
      strWidth (wrapStep maxW acc tok).2 ≤ maxW := by
  obtain ⟨hl, hc⟩ := wrapTok_spec maxW (2 * tok.length + 1) acc.2 tok hacc.2 htok
  unfold wrapStep
  by_cases hflush : maxW ≤ strWidth (wrapTok maxW (2 * tok.length + 1) acc.2 tok).2
  · simp only [hflush, if_pos]
    refine ⟨?_, by simp⟩
    intro l hmem
    rcases List.mem_append.1 hmem with h | h
    · rcases List.mem_append.1 h with h2 | h2
      · exact hacc.1 l h2
      · exact hl l h2
    · rw [List.mem_singleton.1 h]
      exact le_trans hc (le_trans (Nat.le_succ _) (le_max_left _ _))
  · simp only [hflush, if_neg, if_false]
    refine ⟨?_, hc⟩
    intro l hmem
    rcases List.mem_append.1 hmem with h | h
    · exact hacc.1 l h
    · exact hl l h

theorem strWidth_take_le (s : JsStr) (n : Nat) :
    strWidth (s.take n) ≤ strWidth s := by
  have h := strWidth_append (s.take n) (s.drop n)
  rw [List.take_append_drop] at h
  omega

theorem strWidth_drop_le (s : JsStr) (n : Nat) :
    strWidth (s.drop n) ≤ strWidth s := by
  have h := strWidth_append (s.take n) (s.drop n)
  rw [List.take_append_drop] at h
  omega

theorem collapseNewlines_glyph_le (s : JsStr) (hg : ∀ g ∈ s, g.w ≤ 2) :
    ∀ g ∈ collapseNewlines s, g.w ≤ 2 := by
  intro g hgmem
  obtain ⟨g0, hg0, hmap⟩ := List.mem_map.1 hgmem
  by_cases h10 : g0.code = 10
  · simp only [collapseNewlines, h10, if_pos] at hmap
    rw [← hmap]
    decide
  · simp only [h10, if_neg, if_false] at hmap
    rw [← hmap]
    exact hg g0 hg0

theorem collapseNewlines_eq_self (s : JsStr) (hno : ∀ g ∈ s, g.code ≠ 10) :
    collapseNewlines s = s := by
  induction s with
  | nil => rfl
  | cons g t ih =>
    have hg : g.code ≠ 10 := hno g (List.mem_cons_self g t)
    have ht := ih (fun x hx => hno x (List.mem_cons_of_mem g hx))
    simp only [collapseNewlines] at ht ⊢
    simp [hg, ht]

theorem foldl_wrapStep_bound (maxW : Nat) :
    ∀ (toks : List JsStr) (acc : List JsStr × JsStr),
      (∀ tok ∈ toks, ∀ g ∈ tok, g.w ≤ 2) →
      ((∀ l ∈ acc.1, strWidth l ≤ max (maxW + 1) 2) ∧ strWidth acc.2 ≤ maxW) →
      ((∀ l ∈ (toks.foldl (wrapStep maxW) acc).1, strWidth l ≤ max (maxW + 1) 2) ∧
        strWidth (toks.foldl (wrapStep maxW) acc).2 ≤ maxW) := by
  intro toks
  induction toks with
  | nil => intro acc _ hacc; simpa using hacc
  | cons tok rest ih =>
    intro acc htoks hacc
    simp only [List.foldl_cons]
    exact ih (wrapStep maxW acc tok)
      (fun t ht => htoks t (List.mem_cons_of_mem tok ht))
      (wrapStep_spec maxW acc tok hacc (htoks tok (List.mem_cons_self tok rest)))

/-- C6: the claim fails: wrapping a single double-width glyph to
`maxWidth = 1` yields a line of display width 2. -/
theorem c6_counterexample :
    wrapLines [⟨0x65E5, 2⟩] 1 = [[⟨0x65E5, 2⟩]] ∧
      ¬ strWidth [(⟨0x65E5, 2⟩ : Glyph)] ≤ 1 := by
  constructor
  · rfl
  · decide

/-- C6 (amended): in full-content mode, for glyph material of display
width at most 2 per glyph (the unicode invariant), every line produced
by `wrapLines` has display width at most `max (maxWidth + 1) 2` — the
hard-split step may overshoot `maxWidth` by one display column when a
double-width glyph straddles the boundary (and a single glyph is emitted
even when `maxWidth = 0`); and for empty input the result is exactly one
empty line. -/
theorem c6_wrap_bound (s : JsStr) (maxW : Nat) (hg : ∀ g ∈ s, g.w ≤ 2) :
    (∀ l ∈ wrapLines s maxW, strWidth l ≤ max (maxW + 1) 2) ∧
      wrapLines [] maxW = [[]] := by
  refine ⟨?_, rfl⟩
  intro l hl
  unfold wrapLines at hl
  by_cases hraw : collapseNewlines s = []
  · simp only [hraw, if_pos] at hl
    simp only [List.mem_singleton] at hl
    subst hl
    simp
  · simp only [hraw, if_neg, if_false] at hl
    have hcoll := collapseNewlines_glyph_le s hg
    have htoks : ∀ tok ∈ splitSp (collapseNewlines s), ∀ g ∈ tok, g.w ≤ 2 := by
      intro tok htok g hgmem
      exact hcoll g ((splitSpGo_tok _ _ tok htok).1 g hgmem)
    obtain ⟨h1, h2⟩ := foldl_wrapStep_bound maxW (splitSp (collapseNewlines s))
      ([], []) htoks ⟨by simp, by simp⟩
    set r := (splitSp (collapseNewlines s)).foldl (wrapStep maxW) ([], []) with hr
    by_cases hcur : r.2 = []
    · simp only [hcur, if_pos] at hl
      exact h1 l hl
    · simp only [hcur, if_neg, if_false] at hl
      rcases List.mem_append.1 hl with h | h
      · exact h1 l h
      · rw [List.mem_singleton.1 h]
        exact le_trans h2 (le_trans (Nat.le_succ _) (le_max_left _ _))

theorem c6_wrap_bound_witness :
    (∀ l ∈ wrapLines (asc "hello world") 4, strWidth l ≤ max (4 + 1) 2) ∧
      wrapLines [] 4 = [[]] :=
  c6_wrap_bound (asc "hello world") 4 (by decide)

theorem wrapTok_fit (maxW : Nat) :
    ∀ fuel current frag, strWidth current ≤ maxW →
      (∀ l ∈ (wrapTok maxW fuel current frag).1,
          strWidth l ≤ max maxW (strWidth frag)) ∧
        strWidth (wrapTok maxW fuel current frag).2 ≤ maxW := by
  intro fuel
  induction fuel with
  | zero =>
    intro current frag hcur
    exact ⟨by simp [wrapTok], by simpa [wrapTok] using hcur⟩
  | succ n ih =>
    intro current frag hcur
    by_cases hnil : frag = []
    · subst hnil
      exact ⟨by simp [wrapTok], by simpa [wrapTok] using hcur⟩
    · by_cases hover : maxW < strWidth (current ++ frag)
      · by_cases hce : current = []
        · subst hce
          have hover2 : maxW < strWidth frag := by simpa using hover
          obtain ⟨hl, hc2⟩ := ih [] (frag.drop (cutPointGo frag maxW frag.length 1))
            (by simp)
          have heq : wrapTok maxW (n + 1) [] frag =
              (frag.take (cutPointGo frag maxW frag.length 1) ::
                (wrapTok maxW n [] (frag.drop (cutPointGo frag maxW frag.length 1))).1,
               (wrapTok maxW n [] (frag.drop (cutPointGo frag maxW frag.length 1))).2) := by
            simp [wrapTok, hnil, hover2]
          rw [heq]
          refine ⟨?_, hc2⟩
          intro l hl2
          rcases List.mem_cons.1 hl2 with h | h
          · subst h
            exact le_trans (strWidth_take_le frag _) (le_max_right _ _)
          · exact le_trans (hl l h)
              (max_le_max (le_refl _) (strWidth_drop_le frag _))
        · obtain ⟨hl, hc2⟩ := ih [] frag (by simp)
          have hover2 : maxW < strWidth current + strWidth frag := by simpa using hover
          have heq : wrapTok maxW (n + 1) current frag =
              (current :: (wrapTok maxW n [] frag).1, (wrapTok maxW n [] frag).2) := by
            simp [wrapTok, hnil, hover2, hce]
          rw [heq]
          refine ⟨?_, hc2⟩
          intro l hl2
          rcases List.mem_cons.1 hl2 with h | h
          · subst h; exact le_trans hcur (le_max_left _ _)
          · exact hl l h
      · have hover2 : ¬ maxW < strWidth current + strWidth frag := by simpa using hover
        have heq : wrapTok maxW (n + 1) current frag = ([], current ++ frag) := by
          simp [wrapTok, hnil, hover2]
        rw [heq]
        exact ⟨by simp, by simp only [strWidth_append]; omega⟩

theorem foldl_wrapStep_fit (maxW W : Nat) (hW : maxW ≤ W) :
    ∀ (toks : List JsStr) (acc : List JsStr × JsStr),
      (∀ tok ∈ toks, strWidth tok ≤ W) →
      ((∀ l ∈ acc.1, strWidth l ≤ W) ∧ strWidth acc.2 ≤ maxW) →
      ((∀ l ∈ (toks.foldl (wrapStep maxW) acc).1, strWidth l ≤ W) ∧
        strWidth (toks.foldl (wrapStep maxW) acc).2 ≤ maxW) := by
  intro toks
  induction toks with
  | nil => intro acc _ hacc; simpa using hacc
  | cons tok rest ih =>
    intro acc htoks hacc
    simp only [List.foldl_cons]
    refine ih (wrapStep maxW acc tok)
      (fun t ht => htoks t (List.mem_cons_of_mem tok ht)) ?_
    obtain ⟨hl, hc⟩ := wrapTok_fit maxW (2 * tok.length + 1) acc.2 tok hacc.2
    have htokW : strWidth tok ≤ W := htoks tok (List.mem_cons_self tok rest)
    have hpush : ∀ l ∈ (wrapTok maxW (2 * tok.length + 1) acc.2 tok).1,
        strWidth l ≤ W := by
      intro l hmem
      exact le_trans (hl l hmem) (max_le hW htokW)
    unfold wrapStep
    by_cases hflush : maxW ≤ strWidth (wrapTok maxW (2 * tok.length + 1) acc.2 tok).2
    · simp only [hflush, if_pos]
      refine ⟨?_, by simp⟩
      intro l hmem
      rcases List.mem_append.1 hmem with h | h
      · rcases List.mem_append.1 h with h2 | h2
        · exact hacc.1 l h2
        · exact hpush l h2
      · rw [List.mem_singleton.1 h]
        exact le_trans hc hW
    · simp only [hflush, if_neg, if_false]
      refine ⟨?_, hc⟩
      intro l hmem
      rcases List.mem_append.1 hmem with h | h
      · exact hacc.1 l h
      · exact hpush l h

/-- When the whole cell text already fits the column (and contains no raw
newline, which holds for formatted cell values whose newlines were
escaped), every wrapped line fits the column too. -/
theorem wrapLines_fit (s : JsStr) (maxW : Nat)
    (hno : ∀ g ∈ s, g.code ≠ 10) (hfit : strWidth s ≤ maxW) :
    ∀ l ∈ wrapLines s maxW, strWidth l ≤ maxW := by
  intro l hl
  unfold wrapLines at hl
  rw [collapseNewlines_eq_self s hno] at hl
  by_cases hraw : s = []
  · simp only [hraw, if_pos] at hl
    simp only [List.mem_singleton] at hl
    subst hl
    simp
  · simp only [hraw, if_neg, if_false] at hl
    have htoks : ∀ tok ∈ splitSp s, strWidth tok ≤ maxW := by
      intro tok htok
      exact le_trans (splitSpGo_tok _ _ tok htok).2 hfit
    obtain ⟨h1, h2⟩ := foldl_wrapStep_fit maxW maxW (le_refl _)
      (splitSp s) ([], []) htoks ⟨by simp, by simp⟩
    set r := (splitSp s).foldl (wrapStep maxW) ([], []) with hr
    by_cases hcur : r.2 = []
    · simp only [hcur, if_pos] at hl
      exact h1 l hl
    · simp only [hcur, if_neg, if_false] at hl
      rcases List.mem_append.1 hl with h | h
      · exact h1 l h
      · rw [List.mem_singleton.1 h]
        exact h2

/-- A cell value as the renderer distinguishes them (table.ts lines
23–33 and 169–179): `null`/`undefined`, numbers, bigints, strings, and
everything else.  Non-string, non-null values carry their `Bun.inspect`
rendering abstractly as the glyph string the inspector would produce. -/
inductive Value
  | vnull
  | vnum (s : JsStr)
  | vbig (s : JsStr)
  | vstr (s : JsStr)
  | vother (s : JsStr)
deriving DecidableEq, Repr

/-- A row: the ordered key/value pairs of the JavaScript record (object
keys are unique and iterate in insertion order). -/
abbrev Row := List (JsStr × Value)

/-- `row[col]`: first value stored under the key, `none` when missing. -/
def rowGet : Row → JsStr → Option Value
  | [], _ => none
  | (k, v) :: rest, key => if k = key then some v else rowGet rest key

/-- `formatValue` (table.ts lines 23–33): `null`/`undefined` render as a
(possibly dimmed) `NULL`, strings render as themselves, and everything
else as its inspection string. -/
def formatValue (ansi : Bool) : Option Value → JsStr
  | none => (if ansi then DIMg else []) ++ asc "NULL" ++ (if ansi then RESETg else [])
  | some .vnull => (if ansi then DIMg else []) ++ asc "NULL" ++ (if ansi then RESETg else [])
  | some (.vstr s) => s
  | some (.vnum s) => s
  | some (.vbig s) => s
  | some (.vother s) => s

/-- The `.replace(/\n/g, "\\n")` applied to every formatted cell
(table.ts line 184): each newline becomes the two glyphs `\` `n`. -/
def escapeNewlines : JsStr → JsStr
  | [] => []
  | g :: rest => (if g.code = 10 then [⟨92, 1⟩, ⟨110, 1⟩] else [g]) ++ escapeNewlines rest

/-- Numeric-column test for one value (table.ts lines 169–179). -/
def isNumericVal : Option Value → Bool
  | none => true
  | some .vnull => true
  | some (.vnum _) => true
  | some (.vbig _) => true
  | some _ => false

/-- `maxRows` is a JavaScript number that may be the `Infinity`
sentinel. -/
inductive MaxRows
  | fin (n : Nat)
  | inf
deriving DecidableEq, Repr

/-- `TableOptions` (table.ts lines 73–78); `none` fields model omitted
properties. -/
structure TableOptions where
  maxRows : Option MaxRows := none
  title : Option JsStr := none
  totalRows : Option Nat := none
  fullContent : Bool := false
deriving DecidableEq, Repr

/-- Decimal rendering of a number interpolated into a template string. -/
def natStr (n : Nat) : JsStr := asc (toString n)

/-- `minColWidth` (table.ts line 190). -/
def minColWidth : Nat := 3

/-- Available width for column content at `k` visible columns (table.ts
lines 191–192 and 203): `terminalWidth - (4 + (k - 1) * 3)`, an integer
that may be negative. -/
def availOf (termW k : Nat) : Int := (termW : Int) - (4 + ((k : Int) - 1) * 3)

/-- The column-hiding loop (table.ts lines 197–204): drop the rightmost
column while the floor width times the column count exceeds the
available width and more than one column remains.  The count shrinks by
one per iteration, so the initial count is sufficient fuel. -/
def hideGo (termW : Nat) : Nat → Nat → Nat
  | 0, k => k
  | fuel + 1, k =>
    if ((k * minColWidth : Int) > availOf termW k) ∧ 1 < k then
      hideGo termW fuel (k - 1)
    else k

/-- Number of visible columns out of `n` at terminal width `termW`. -/
def hideLoop (termW n : Nat) : Nat := hideGo termW n n

/-- Integer square root, modelling `Math.sqrt` (table.ts line 218).  The
theorems below never depend on the numeric value of the square roots
(only on the `max`/floor clamping around the fair shares), and every
concrete evaluation that reaches the compression step uses a single
visible column, where the fair ratio is exactly 1 under `Math.sqrt` and
under this model alike. -/
def jsSqrt (n : Nat) : Nat :=
  (List.range (n + 1)).foldl (fun acc r => if r * r ≤ n then r else acc) 0

/-- The fair-share pass of the compression step (table.ts lines
215–226): each column gets `floor(sqrt(w_i) / sqrtTotal * available)`,
floored at `max(3, header width)`.  `Math.floor` of the ratio equals
integer floor division here.  When every natural width is zero the
JavaScript expression is `0/0 = NaN` (a degenerate corner excluded by
the hypotheses of every theorem below); the model lets the header floor
win there. -/
def fairWidths (cols : List JsStr) (ws : List Nat) (avail : Int) : List Nat :=
  let sqrtTotal : Nat := (ws.map jsSqrt).sum
  (List.range ws.length).map (fun i =>
    let headerW := max minColWidth (strWidth (cols.getD i []))
    let fair : Int :=
      if sqrtTotal = 0 then 0
      else ((jsSqrt (ws.getD i 0) : Int) * avail).fdiv (sqrtTotal : Int)
    max headerW fair.toNat)

/-- Index of the first maximal width (table.ts lines 233–236). -/
def firstMaxIdx (ws : List Nat) : Nat :=
  (List.range ws.length).foldl (fun m i => if ws.getD m 0 < ws.getD i 0 then i else m) 0

/-- `visibleColWidths[maxIdx]--` (table.ts line 237). -/
def decAt : List Nat → Nat → List Nat
  | [], _ => []
  | w :: ws, 0 => (w - 1) :: ws
  | w :: ws, i + 1 => w :: decAt ws i

/-- The shrink loop of the compression step (table.ts lines 229–239):
while the total still exceeds the available width and some column is
above the floor, decrement the first widest column.  Each iteration
lowers the total by one, so the initial total is sufficient fuel. -/
def shrinkGo (avail : Int) : Nat → List Nat → List Nat
  | 0, ws => ws
  | fuel + 1, ws =>
    if ((ws.sum : Int) > avail) ∧ ws.any (fun w => minColWidth < w) = true then
      shrinkGo avail fuel (decAt ws (firstMaxIdx ws))
    else ws

/-- Entry point of the shrink loop. -/
def shrinkLoop (avail : Int) (ws : List Nat) : List Nat := shrinkGo avail ws.sum ws

/-- The whole width-compression step (table.ts lines 212–240): run only
when the natural widths overflow the available width. -/
def compressedWidths (cols : List JsStr) (ws : List Nat) (avail : Int) : List Nat :=
  if (ws.sum : Int) > avail then shrinkLoop avail (fairWidths cols ws avail) else ws

theorem getD_range_map {α : Type} (f : Nat → α) (d : α) (n i : Nat) (h : i < n) :
    ((List.range n).map f).getD i d = f i := by
  have hlen : i < ((List.range n).map f).length := by simpa using h
  rw [List.getD_eq_getElem _ d hlen]
  simp

theorem decAt_length (ws : List Nat) : ∀ i, (decAt ws i).length = ws.length := by
  induction ws with
  | nil => intro i; rfl
  | cons w rest ih =>
    intro i
    cases i with
    | zero => rfl
    | succ i => simpa [decAt] using ih i

theorem decAt_getD (ws : List Nat) : ∀ i j,
    (decAt ws i).getD j 0 = if i = j then ws.getD j 0 - 1 else ws.getD j 0 := by
  induction ws with
  | nil =>
    intro i j
    simp [decAt, List.getD]
  | cons w rest ih =>
    intro i j
    cases i with
    | zero =>
      cases j with
      | zero => simp [decAt]
      | succ j => simp [decAt]
    | succ i =>
      cases j with
      | zero => simp [decAt]
      | succ j =>
        simp only [decAt, List.getD_cons_succ]
        rw [ih i j]
        by_cases hij : i = j
        · simp [hij]
        · simp [hij, fun h => hij (Nat.succ_injective h)]

theorem getD_mem (l : List Nat) : ∀ i, i < l.length → l.getD i 0 ∈ l := by
  induction l with
  | nil => intro i h; simp at h
  | cons x rest ih =>
    intro i h
    cases i with
    | zero => simp
    | succ i =>
      simp only [List.getD_cons_succ]
      exact List.mem_cons_of_mem x (ih i (by simpa using h))

theorem mem_imp_getD (l : List Nat) (x : Nat) (h : x ∈ l) :
    ∃ i, i < l.length ∧ l.getD i 0 = x := by
  obtain ⟨i, hi, hx⟩ := List.mem_iff_getElem.1 h
  exact ⟨i, hi, by rw [List.getD_eq_getElem l 0 hi, hx]⟩

theorem firstMaxIdx_ge (ws : List Nat) :
    ∀ j, ws.getD j 0 ≤ ws.getD (firstMaxIdx ws) 0 := by
  have key : ∀ (l : List Nat) (m : Nat),
      (∀ i ∈ l, ws.getD i 0 ≤
        ws.getD (l.foldl (fun m i => if ws.getD m 0 < ws.getD i 0 then i else m) m) 0) ∧
      ws.getD m 0 ≤
        ws.getD (l.foldl (fun m i => if ws.getD m 0 < ws.getD i 0 then i else m) m) 0 := by
    intro l
    induction l with
    | nil => intro m; exact ⟨by simp, le_refl _⟩
    | cons i rest ih =>
      intro m
      simp only [List.foldl_cons]
      by_cases hlt : ws.getD m 0 < ws.getD i 0
      · simp only [hlt, if_pos]
        refine ⟨?_, le_trans (le_of_lt hlt) (ih i).2⟩
        intro j hj
        rcases List.mem_cons.1 hj with h | h
        · rw [h]; exact (ih i).2
        · exact (ih i).1 j h
      · simp only [hlt, if_neg, if_false]
        refine ⟨?_, (ih m).2⟩
        intro j hj
        rcases List.mem_cons.1 hj with h | h
        · rw [h]; exact le_trans (Nat.le_of_not_lt hlt) (ih m).2
        · exact (ih m).1 j h
  intro j
  by_cases hj : j < ws.length
  · exact (key (List.range ws.length) 0).1 j (List.mem_range.2 hj)
  · rw [List.getD_eq_default ws 0 (Nat.le_of_not_lt hj)]
    exact Nat.zero_le _

theorem fairWidths_ge (cols : List JsStr) (ws : List Nat) (avail : Int) :
    ∀ x ∈ fairWidths cols ws avail, minColWidth ≤ x := by
  intro x hx
  unfold fairWidths at hx
  obtain ⟨i, _, hmap⟩ := List.mem_map.1 hx
  rw [← hmap]
  exact le_trans (le_max_left _ _) (le_max_left _ _)

theorem shrinkGo_ge (avail : Int) :
    ∀ fuel ws, (∀ x ∈ ws, minColWidth ≤ x) →
      ∀ x ∈ shrinkGo avail fuel ws, minColWidth ≤ x := by
  intro fuel
  induction fuel with
  | zero => intro ws h x hx; exact h x hx
  | succ n ih =>
    intro ws h x hx
    by_cases hguard : ((ws.sum : Int) > avail) ∧ ws.any (fun w => minColWidth < w) = true
    · have hstep : shrinkGo avail (n + 1) ws = shrinkGo avail n (decAt ws (firstMaxIdx ws)) := by
        simp only [shrinkGo, hguard, and_self, if_pos]
      rw [hstep] at hx
      refine ih (decAt ws (firstMaxIdx ws)) ?_ x hx
      intro y hy
      obtain ⟨j, hjlen, hjval⟩ := mem_imp_getD _ y hy
      rw [decAt_length] at hjlen
      rw [decAt_getD] at hjval
      obtain ⟨z, hz, hz3⟩ := List.any_eq_true.1 hguard.2
      have hz3 : minColWidth < z := of_decide_eq_true hz3
      obtain ⟨jz, hjzlen, hjzval⟩ := mem_imp_getD ws z hz
      have hmax : minColWidth < ws.getD (firstMaxIdx ws) 0 :=
        lt_of_lt_of_le hz3 (hjzval ▸ firstMaxIdx_ge ws jz)
      by_cases hij : firstMaxIdx ws = j
      · rw [if_pos hij] at hjval
        rw [← hjval, ← hij]
        omega
      · rw [if_neg hij] at hjval
        rw [← hjval]
        exact h _ (getD_mem ws j hjlen)
    · have hstep : shrinkGo avail (n + 1) ws = ws := by
        simp only [shrinkGo, if_neg hguard]
      rw [hstep] at hx
      exact h x hx

/-- C3: the claim fails: one visible column whose header has width 10,
natural width 10, available width 6 (terminal width 10).  The fair share
respects the `max(3, header)` floor, but the shrink loop then lowers the
column to 6, strictly below the header width. -/
theorem c3_counterexample :
    compressedWidths [asc "abcdefghij"] [10] 6 = [6] ∧
      ((10 : Nat) : Int) > 6 ∧
      6 < max 3 (strWidth (asc "abcdefghij")) := by
  refine ⟨rfl, by decide, by decide⟩

/-- C3 (amended): when the compression step runs (the natural widths
exceed the available width, and not everything is zero-width), the
fair-share pass does respect the per-column floor `max(3, header
width)`, but the subsequent shrink loop only respects the absolute floor
`minColWidth = 3`: every final width is at least 3, not necessarily at
least the header width. -/
theorem c3_compression_floor (cols : List JsStr) (ws : List Nat) (avail : Int)
    (hrun : (ws.sum : Int) > avail) (_hpos : 0 < ws.sum) :
    (∀ i, i < ws.length →
        max minColWidth (strWidth (cols.getD i [])) ≤
          (fairWidths cols ws avail).getD i 0) ∧
      (∀ x ∈ compressedWidths cols ws avail, minColWidth ≤ x) := by
  constructor
  · intro i hi
    unfold fairWidths
    rw [getD_range_map _ _ _ i hi]
    exact le_max_left _ _
  · intro x hx
    unfold compressedWidths at hx
    rw [if_pos hrun] at hx
    exact shrinkGo_ge _ _ _ (fairWidths_ge cols ws avail) x hx

theorem c3_compression_floor_witness :
    ((∀ i, i < [(9 : Nat)].length →
        max minColWidth (strWidth ([asc "ab"].getD i [])) ≤
          (fairWidths [asc "ab"] [9] 3).getD i 0) ∧
      (∀ x ∈ compressedWidths [asc "ab"] [9] 3, minColWidth ≤ x)) :=
  c3_compression_floor [asc "ab"] [9] 3 (by decide) (by decide)

/-- Resolved `maxRows` with its default of 100 (table.ts line 126). -/
def maxRowsOf (o : TableOptions) : MaxRows := o.maxRows.getD (.fin 100)

/-- JavaScript truthiness of the optional title: absent and the empty
string are both falsy (`if (title)`, table.ts lines 132, 258, 275). -/
def titleTruthy (t : Option JsStr) : Option JsStr :=
  match t with
  | some s => if s = [] then none else some s
  | none => none

/-- `displayRows` (table.ts line 165): all rows under the `Infinity`
sentinel, otherwise `rows.slice(0, maxRows)`. -/
def displayRowsOf (rows : List Row) (m : MaxRows) : List Row :=
  match m with
  | .inf => rows
  | .fin n => rows.take n

def displayRowsT (rows : List Row) (o : TableOptions) : List Row :=
  displayRowsOf rows (maxRowsOf o)

/-- `allColumns` (table.ts line 166): the first displayed row's keys. -/
def allColumnsT (rows : List Row) (o : TableOptions) : List JsStr :=
  ((displayRowsT rows o).headD []).map Prod.fst

/-- `isNumericCol` (table.ts lines 169–179). -/
def isNumericT (rows : List Row) (o : TableOptions) : List Bool :=
  (allColumnsT rows o).map
    (fun c => (displayRowsT rows o).all (fun r => isNumericVal (rowGet r c)))

/-- `formattedRows` (table.ts lines 182–188), newline escaping
included. -/
def formattedRowsT (ansi : Bool) (rows : List Row) (o : TableOptions) :
    List (List JsStr) :=
  (displayRowsT rows o).map (fun r =>
    (allColumnsT rows o).map (fun c => escapeNewlines (formatValue ansi (rowGet r c))))

/-- `colWidths` after the in-place maxing of lines 181–188: per column
the max of the header width and every formatted cell width. -/
def colWidthsT (ansi : Bool) (rows : List Row) (o : TableOptions) : List Nat :=
  (List.range (allColumnsT rows o).length).map (fun i =>
    ((formattedRowsT ansi rows o).map (fun r => strWidth (r.getD i []))).foldl max
      (strWidth ((allColumnsT rows o).getD i [])))

/-- Visible column count (table.ts lines 194–204). -/
def visibleCountT (termW : Nat) (rows : List Row) (o : TableOptions) : Nat :=
  hideLoop termW (allColumnsT rows o).length

/-- `columns` after hiding (table.ts line 201). -/
def columnsT (termW : Nat) (rows : List Row) (o : TableOptions) : List JsStr :=
  (allColumnsT rows o).take (visibleCountT termW rows o)

/-- `availableForColumns` after hiding (table.ts line 203). -/
def availT (termW : Nat) (rows : List Row) (o : TableOptions) : Int :=
  availOf termW (visibleCountT termW rows o)

/-- `visibleColWidths` before compression (table.ts line 206). -/
def ws0T (ansi : Bool) (termW : Nat) (rows : List Row) (o : TableOptions) : List Nat :=
  (colWidthsT ansi rows o).take (visibleCountT termW rows o)

/-- `visibleFormattedRows` (table.ts lines 207–209). -/
def visRowsT (ansi : Bool) (termW : Nat) (rows : List Row) (o : TableOptions) :
    List (List JsStr) :=
  (formattedRowsT ansi rows o).map (fun r => r.take (visibleCountT termW rows o))

/-- `visibleIsNumeric` (table.ts line 210). -/
def visNumT (termW : Nat) (rows : List Row) (o : TableOptions) : List Bool :=
  (isNumericT rows o).take (visibleCountT termW rows o)

/-- `visibleColWidths` after the compression step (table.ts lines
212–240). -/
def ws1T (ansi : Bool) (termW : Nat) (rows : List Row) (o : TableOptions) : List Nat :=
  compressedWidths (columnsT termW rows o) (ws0T ansi termW rows o) (availT termW rows o)

/-- `hiddenCols` (table.ts lines 195, 202). -/
def hiddenColsT (termW : Nat) (rows : List Row) (o : TableOptions) : Nat :=
  (allColumnsT rows o).length - visibleCountT termW rows o

/-- `truncatedRows` (table.ts lines 242–244): `totalRows ?? rowCount`
minus the drawn rows when positive. -/
def truncatedRowsT (rows : List Row) (o : TableOptions) : Nat :=
  let actualTotal := o.totalRows.getD rows.length
  if actualTotal > (displayRowsT rows o).length
  then actualTotal - (displayRowsT rows o).length else 0

/-- `Array.prototype.join` with a separator (polymorphic so it also
joins lists of lines). -/
def joinSep {α : Type} (sep : List α) : List (List α) → List α
  | [] => []
  | [x] => x
  | x :: xs => x ++ sep ++ joinSep sep xs

/-- `infoText` (table.ts lines 245–253). -/
def infoTextT (termW : Nat) (rows : List Row) (o : TableOptions) : JsStr :=
  let truncatedRows := truncatedRowsT rows o
  let hiddenCols := hiddenColsT termW rows o
  if truncatedRows > 0 ∨ hiddenCols > 0 then
    asc "... " ++ joinSep (asc ", ")
      ((if truncatedRows > 0 then
          [natStr truncatedRows ++ asc " more row" ++
            (if truncatedRows > 1 then asc "s" else [])]
        else []) ++
       (if hiddenCols > 0 then
          [natStr hiddenCols ++ asc " more column" ++
            (if hiddenCols > 1 then asc "s" else [])]
        else []))
  else []

/-- `contentWidth` (table.ts lines 255–256). -/
def contentWidthT (ansi : Bool) (termW : Nat) (rows : List Row) (o : TableOptions) : Int :=
  ((ws1T ansi termW rows o).sum : Int) + ((visibleCountT termW rows o : Int) - 1) * 3

/-- `titleWidth` (table.ts line 258). -/
def titleWidthT (o : TableOptions) : Nat :=
  match titleTruthy o.title with
  | some t => strWidth t + 4
  | none => 0

/-- `innerWidth` (table.ts lines 259–263). -/
def innerWidthT (ansi : Bool) (termW : Nat) (rows : List Row) (o : TableOptions) : Int :=
  min (max (contentWidthT ansi termW rows o) (titleWidthT o : Int)) ((termW : Int) - 4)

/-- `totalInnerWidth` (table.ts line 265). -/
def totalInnerWidthT (ansi : Bool) (termW : Nat) (rows : List Row) (o : TableOptions) : Int :=
  innerWidthT ansi termW rows o + 2

/-- Add `d` to the last entry (table.ts line 268). -/
def bumpLast (d : Nat) : List Nat → List Nat
  | [] => []
  | [w] => [w + d]
  | w :: ws => w :: bumpLast d ws

/-- Final drawing widths (after the title expansion of table.ts lines
267–269). -/
def wsFinalT (ansi : Bool) (termW : Nat) (rows : List Row) (o : TableOptions) : List Nat :=
  if innerWidthT ansi termW rows o > contentWidthT ansi termW rows o ∧
      0 < (ws1T ansi termW rows o).length then
    bumpLast (innerWidthT ansi termW rows o - contentWidthT ansi termW rows o).toNat
      (ws1T ansi termW rows o)
  else ws1T ansi termW rows o

def gTL : Glyph := ⟨0x256D, 1⟩

def gTR : Glyph := ⟨0x256E, 1⟩

def gBL : Glyph := ⟨0x2570, 1⟩

def gBR : Glyph := ⟨0x256F, 1⟩

def gH : Glyph := ⟨0x2500, 1⟩

def gV : Glyph := ⟨0x2502, 1⟩

def gHL : Glyph := ⟨0x251C, 1⟩

def gHR : Glyph := ⟨0x2524, 1⟩

def gHC : Glyph := ⟨0x253C, 1⟩

def gTC : Glyph := ⟨0x252C, 1⟩

def gBC : Glyph := ⟨0x2534, 1⟩

def dimS (ansi : Bool) : JsStr := if ansi then DIMg else []

def boldS (ansi : Bool) : JsStr := if ansi then BOLDg else []

def resetS (ansi : Bool) : JsStr := if ansi then RESETg else []

/-- A run of `w` horizontal border glyphs. -/
def hRun (w : Nat) : JsStr := List.replicate w gH

/-- `fullTopBorder` (table.ts lines 271–274). -/
def fullTopBorderT (ws : List Nat) : JsStr :=
  [gTL, gH] ++ joinSep [gH, gTC, gH] (ws.map hRun) ++ [gH, gTR]

/-- Top line when a title is present (table.ts lines 275–283): splice
the title into the border after two glyphs. -/
def titleTopLine (ansi : Bool) (ws : List Nat) (t : JsStr) : JsStr :=
  let titleDisplay := [spaceG] ++ t ++ [spaceG]
  let fb := fullTopBorderT ws
  dimS ansi ++ fb.take 2 ++ resetS ansi ++ boldS ansi ++ titleDisplay ++
    resetS ansi ++ dimS ansi ++ fb.drop (2 + strWidth titleDisplay) ++ resetS ansi

/-- Top line without a title (table.ts line 285). -/
def plainTopLine (ansi : Bool) (ws : List Nat) : JsStr :=
  dimS ansi ++ fullTopBorderT ws ++ resetS ansi

/-- One aligned cell: truncate to the column width, then pad left for
numeric columns and right otherwise (table.ts lines 288–295, 313–318,
330–338). -/
def cellOf (ansi : Bool) (isNum : Bool) (s : JsStr) (w : Nat) : JsStr :=
  if isNum then padLeft (truncate ansi s w) w else padRight (truncate ansi s w) w

/-- The cell separator `` ` │ ` `` (table.ts line 295). -/
def cellSep (ansi : Bool) : JsStr :=
  [spaceG] ++ dimS ansi ++ [gV] ++ resetS ansi ++ [spaceG]

/-- Wrap joined cells in the outer `│ … │` border (table.ts lines
296–298, 319–320, 339–341). -/
def rowLine (ansi : Bool) (cells : List JsStr) : JsStr :=
  dimS ansi ++ [gV] ++ resetS ansi ++ [spaceG] ++ joinSep (cellSep ansi) cells ++
    [spaceG] ++ dimS ansi ++ [gV] ++ resetS ansi

/-- Header line (table.ts lines 288–298); the map over `columns` with
index is written as a map over the index range. -/
def headerLineT (ansi : Bool) (cols : List JsStr) (ws : List Nat) (nums : List Bool) : JsStr :=
  rowLine ansi ((List.range cols.length).map (fun i =>
    cellOf ansi (nums.getD i false) (cols.getD i []) (ws.getD i 0)))

/-- Interior separator border `├─…─┤` (table.ts lines 300–305 and
322–327). -/
def sepLineT (ansi : Bool) (ws : List Nat) : JsStr :=
  dimS ansi ++ [gHL, gH] ++ joinSep [gH, gHC, gH] (ws.map hRun) ++ [gH, gHR] ++ resetS ansi

/-- One default-mode data line (table.ts lines 330–342). -/
def dataLineT (ansi : Bool) (row : List JsStr) (ws : List Nat) (nums : List Bool) : JsStr :=
  rowLine ansi ((List.range row.length).map (fun i =>
    cellOf ansi (nums.getD i false) (row.getD i []) (ws.getD i 0)))

/-- The emitted lines of one row in full-content mode (table.ts lines
308–321): wrap every cell, the tallest cell fixes the row height,
missing wrapped lines render as the empty string. -/
def fullRowLines (ansi : Bool) (row : List JsStr) (ws : List Nat) (nums : List Bool) :
    List JsStr :=
  let wrapped := (List.range row.length).map (fun i =>
    wrapLines (row.getD i []) (ws.getD i 0))
  let rowHeight := (wrapped.map List.length).foldl max 0
  (List.range rowHeight).map (fun li =>
    rowLine ansi ((List.range row.length).map (fun i =>
      cellOf ansi (nums.getD i false) ((wrapped.getD i []).getD li []) (ws.getD i 0))))

/-- Full-content body: the rows' line blocks joined by separator borders
(table.ts lines 307–328). -/
def fullBodyT (ansi : Bool) (vrows : List (List JsStr)) (ws : List Nat) (nums : List Bool) :
    List JsStr :=
  joinSep [sepLineT ansi ws] (vrows.map (fun r => fullRowLines ansi r ws nums))

/-- Trailer line (table.ts lines 345–348).  The JavaScript `innerWidth`
may be negative on tiny terminals; for the nonempty trailer text the
comparisons against a negative bound coincide with clamping it to 0,
which is how the caller passes it. -/
def trailerLineT (ansi : Bool) (info : JsStr) (innerW : Nat) : JsStr :=
  dimS ansi ++ [gV, spaceG] ++ padRight (truncate ansi info innerW) innerW ++
    [spaceG, gV] ++ resetS ansi

/-- Bottom border under a trailer (table.ts lines 350–354). -/
def bottomTrailerT (ansi : Bool) (totalInner : Nat) : JsStr :=
  dimS ansi ++ [gBL] ++ List.replicate totalInner gH ++ [gBR] ++ resetS ansi

/-- Plain bottom border (table.ts lines 356–361). -/
def bottomLineT (ansi : Bool) (ws : List Nat) : JsStr :=
  dimS ansi ++ [gBL, gH] ++ joinSep [gH, gBC, gH] (ws.map hRun) ++ [gH, gBR] ++ resetS ansi

/-- The empty-row-set branch (table.ts lines 131–162). -/
def emptyLines (ansi : Bool) (title : Option JsStr) : List JsStr :=
  match title with
  | some t =>
    let emptyText := asc "(empty)"
    let contentWidth := max (strWidth emptyText) (strWidth t)
    let titleDisplay := [spaceG] ++ t ++ [spaceG]
    let titleWidth := strWidth titleDisplay
    let innerWidth := contentWidth + 2
    let remainingWidth : Int := (innerWidth : Int) - titleWidth - 1
    [dimS ansi ++ [gTL, gH] ++ resetS ansi ++ boldS ansi ++ titleDisplay ++ resetS ansi ++
       dimS ansi ++ List.replicate (max 0 remainingWidth).toNat gH ++ [gTR] ++ resetS ansi,
     dimS ansi ++ [gV] ++ resetS ansi ++ [spaceG] ++ padRight emptyText contentWidth ++
       [spaceG] ++ dimS ansi ++ [gV] ++ resetS ansi,
     dimS ansi ++ [gBL] ++ List.replicate innerWidth gH ++ [gBR] ++ resetS ansi]
  | none => [asc "(empty)"]

/-- All emitted lines of a nonempty table (table.ts lines 164–362). -/
def tableLinesT (ansi : Bool) (termW : Nat) (rows : List Row) (o : TableOptions) :
    List JsStr :=
  let ws := wsFinalT ansi termW rows o
  let cols := columnsT termW rows o
  let nums := visNumT termW rows o
  let vrows := visRowsT ansi termW rows o
  let info := infoTextT termW rows o
  let top :=
    match titleTruthy o.title with
    | some t => titleTopLine ansi ws t
    | none => plainTopLine ansi ws
  let body :=
    if o.fullContent then fullBodyT ansi vrows ws nums
    else vrows.map (fun r => dataLineT ansi r ws nums)
  let tail :=
    if info = [] then [bottomLineT ansi ws]
    else [trailerLineT ansi info (innerWidthT ansi termW rows o).toNat,
          bottomTrailerT ansi (totalInnerWidthT ansi termW rows o).toNat]
  [top, headerLineT ansi cols ws nums, sepLineT ansi ws] ++ body ++ tail

/-- `printTable` (table.ts lines 122–363) as a function of the explicit
ambient inputs (terminal width and color flag), returning the emitted
lines, or `.error ()` on the two inputs where the JavaScript code
throws: `Object.keys(displayRows[0]!)` with an empty `displayRows`
(nonempty rows capped by `maxRows = 0`, line 166), and
`BOX.horizontal.repeat(totalInnerWidth)` with a negative count (trailer
present and `terminalWidth ≤ 1`, line 351). -/
def printTable (ansi : Bool) (termW : Nat) (rows : List Row) (o : TableOptions) :
    Except Unit (List JsStr) :=
  if rows = [] then .ok (emptyLines ansi (titleTruthy o.title))
  else if displayRowsT rows o = [] then .error ()
  else if infoTextT termW rows o ≠ [] ∧ totalInnerWidthT ansi termW rows o < 0 then
    .error ()
  else .ok (tableLinesT ansi termW rows o)

theorem hideGo_le (termW : Nat) : ∀ fuel k, hideGo termW fuel k ≤ k := by
  intro fuel
  induction fuel with
  | zero => intro k; exact le_refl _
  | succ n ih =>
    intro k
    by_cases hg : ((k * minColWidth : Int) > availOf termW k) ∧ 1 < k
    · have : hideGo termW (n + 1) k = hideGo termW n (k - 1) := by
        simp only [hideGo, hg, and_self, if_pos]
      rw [this]
      exact le_trans (ih (k - 1)) (Nat.sub_le k 1)
    · simp only [hideGo, if_neg hg]
      exact le_refl _

theorem hideGo_pos (termW : Nat) : ∀ fuel k, 1 ≤ k → 1 ≤ hideGo termW fuel k := by
  intro fuel
  induction fuel with
  | zero => intro k hk; exact hk
  | succ n ih =>
    intro k hk
    by_cases hg : ((k * minColWidth : Int) > availOf termW k) ∧ 1 < k
    · have : hideGo termW (n + 1) k = hideGo termW n (k - 1) := by
        simp only [hideGo, hg, and_self, if_pos]
      rw [this]
      exact ih (k - 1) (by omega)
    · simp only [hideGo, if_neg hg]
      exact hk

theorem availOf_mono {t1 t2 : Nat} (h : t1 ≤ t2) (k : Nat) :
    availOf t1 k ≤ availOf t2 k := by
  unfold availOf
  omega

theorem hideGo_mono {t1 t2 : Nat} (h : t1 ≤ t2) :
    ∀ fuel k, hideGo t1 fuel k ≤ hideGo t2 fuel k := by
  intro fuel
  induction fuel with
  | zero => intro k; exact le_refl _
  | succ n ih =>
    intro k
    by_cases hg2 : ((k * minColWidth : Int) > availOf t2 k) ∧ 1 < k
    · have hg1 : ((k * minColWidth : Int) > availOf t1 k) ∧ 1 < k :=
        ⟨lt_of_le_of_lt (availOf_mono h k) hg2.1, hg2.2⟩
      have e1 : hideGo t1 (n + 1) k = hideGo t1 n (k - 1) := by
        simp only [hideGo, hg1, and_self, if_pos]
      have e2 : hideGo t2 (n + 1) k = hideGo t2 n (k - 1) := by
        simp only [hideGo, hg2, and_self, if_pos]
      rw [e1, e2]
      exact ih (k - 1)
    · have e2 : hideGo t2 (n + 1) k = k := by
        simp only [hideGo, if_neg hg2]
      rw [e2]
      by_cases hg1 : ((k * minColWidth : Int) > availOf t1 k) ∧ 1 < k
      · have e1 : hideGo t1 (n + 1) k = hideGo t1 n (k - 1) := by
          simp only [hideGo, hg1, and_self, if_pos]
        rw [e1]
        exact le_trans (hideGo_le t1 n (k - 1)) (Nat.sub_le k 1)
      · have e1 : hideGo t1 (n + 1) k = k := by
          simp only [hideGo, if_neg hg1]
        rw [e1]

/-- C7: the claim fails as stated: a batch whose first row has no keys
yields zero columns, so zero columns remain visible at every terminal
width. -/
theorem c7_counterexample :
    allColumnsT [[]] {} = [] ∧ visibleCountT 120 [[]] {} = 0 :=
  ⟨rfl, rfl⟩

/-- C7 (amended): for fixed rows and options the visible-column count is
monotone in the terminal width (narrowing never reveals columns), and at
least one column stays visible at every terminal width provided the
first displayed row has at least one key. -/
theorem c7_visible_monotone (rows : List Row) (o : TableOptions)
    (t1 t2 : Nat) (h : t1 ≤ t2) :
    visibleCountT t1 rows o ≤ visibleCountT t2 rows o ∧
      (1 ≤ (allColumnsT rows o).length → 1 ≤ visibleCountT t1 rows o) :=
  ⟨hideGo_mono h _ _, fun h1 => hideGo_pos t1 _ _ h1⟩

theorem c7_visible_monotone_witness :
    visibleCountT 5 [[(asc "a", Value.vnull), (asc "b", Value.vnull)]] {} ≤
        visibleCountT 80 [[(asc "a", Value.vnull), (asc "b", Value.vnull)]] {} ∧
      (1 ≤ (allColumnsT [[(asc "a", Value.vnull), (asc "b", Value.vnull)]] {}).length →
        1 ≤ visibleCountT 5 [[(asc "a", Value.vnull), (asc "b", Value.vnull)]] {}) :=
  c7_visible_monotone [[(asc "a", Value.vnull), (asc "b", Value.vnull)]] {} 5 80
    (by decide)

/-- Trailer geometry never goes negative on terminals at least 2 columns
wide, so the `repeat` on the trailer bottom border cannot throw. -/
theorem totalInner_nonneg (ansi : Bool) (termW : Nat) (rows : List Row)
    (o : TableOptions) (h : 2 ≤ termW) :
    0 ≤ totalInnerWidthT ansi termW rows o := by
  unfold totalInnerWidthT innerWidthT
  have h1 : (0 : Int) ≤ (titleWidthT o : Int) := Int.ofNat_nonneg _
  have h2 : (0 : Int) ≤ max (contentWidthT ansi termW rows o) ((titleWidthT o : Nat) : Int) :=
    le_trans h1 (le_max_right _ _)
  have h3 : (-2 : Int) ≤ (termW : Int) - 4 := by omega
  have h4 : (-2 : Int) ≤
      min (max (contentWidthT ansi termW rows o) ((titleWidthT o : Nat) : Int))
        ((termW : Int) - 4) :=
    le_min (le_trans (by omega) h2) h3
  omega

/-- C2: the claim fails: with nonempty rows and `maxRows = 0`,
`displayRows` is empty and `Object.keys(displayRows[0]!)` throws. -/
theorem c2_counterexample :
    printTable false 120 [[(asc "a", Value.vnum (asc "1"))]]
      { maxRows := some (.fin 0) } = .error () := rfl

/-- C2 (amended): `printTable` terminates normally (never throws) for
every finite row list, every option record whose `maxRows` is not the
degenerate 0 cap, and every terminal width of at least 2 columns —
including non-homogeneous rows, empty column names, `fullContent`, and
arbitrarily narrow-but-positive terminals. -/
theorem c2_no_throw (ansi : Bool) (termW : Nat) (rows : List Row) (o : TableOptions)
    (hmax : maxRowsOf o ≠ .fin 0) (hterm : 2 ≤ termW) :
    ∃ L, printTable ansi termW rows o = .ok L := by
  by_cases hrows : rows = []
  · exact ⟨emptyLines ansi (titleTruthy o.title), by simp [printTable, hrows]⟩
  · have hdr : ¬ displayRowsT rows o = [] := by
      unfold displayRowsT displayRowsOf
      cases hm : maxRowsOf o with
      | inf => simpa using hrows
      | fin n =>
        have hn : n ≠ 0 := fun h => hmax (by rw [hm, h])
        simp only [List.take_eq_nil_iff]
        intro hco
        rcases hco with h | h
        · exact hn h
        · exact hrows h
    have hti := totalInner_nonneg ansi termW rows o hterm
    have hcond : ¬ (infoTextT termW rows o ≠ [] ∧
        totalInnerWidthT ansi termW rows o < 0) := by
      intro hc
      omega
    refine ⟨tableLinesT ansi termW rows o, ?_⟩
    unfold printTable
    rw [if_neg hrows, if_neg hdr, if_neg hcond]

theorem c2_no_throw_witness :
    ∃ L, printTable false 120 [[(asc "a", Value.vnum (asc "1"))]] {} = .ok L :=
  c2_no_throw false 120 [[(asc "a", Value.vnum (asc "1"))]] {} (by decide) (by decide)

theorem bumpLast_mem (d : Nat) :
    ∀ (ws : List Nat), ∀ x ∈ bumpLast d ws, ∃ y ∈ ws, y ≤ x := by
  intro ws
  induction ws with
  | nil => intro x hx; simp [bumpLast] at hx
  | cons w rest ih =>
    intro x hx
    cases rest with
    | nil =>
      simp only [bumpLast, List.mem_singleton] at hx
      exact ⟨w, by simp, by omega⟩
    | cons v rest2 =>
      simp only [bumpLast] at hx
      rcases List.mem_cons.1 hx with h | h
      · exact ⟨w, by simp, le_of_eq h.symm⟩
      · obtain ⟨y, hy, hyx⟩ := ih x h
        exact ⟨y, List.mem_cons_of_mem w hy, hyx⟩

/-- C4: the claim fails: a single column whose name and only cell value
are both empty strings is drawn at width 0 — the floor is applied only
inside the compression step, which does not run here (terminal width
120).  The whole rendered box degenerates to width 4. -/
theorem c4_counterexample :
    wsFinalT false 120 [[([], Value.vstr [])]] {} = [0] ∧
      (printTable false 120 [[([], Value.vstr [])]] {}).map
          (fun L => L.map strWidth) = .ok [4, 4, 4, 4, 4] :=
  ⟨rfl, rfl⟩

/-- C4 (amended): drawing widths are naturals (never negative), and
whenever the compression step runs (natural widths exceed the available
width, not everything zero-width) every final drawing width — the title
expansion included — is at least the floor `minColWidth = 3`, hence
strictly positive.  Without compression a column whose header and cells
all have display width 0 is drawn at width 0. -/
theorem c4_width_floor (ansi : Bool) (termW : Nat) (rows : List Row) (o : TableOptions)
    (hrun : ((ws0T ansi termW rows o).sum : Int) > availT termW rows o)
    (_hpos : 0 < (ws0T ansi termW rows o).sum) :
    ∀ x ∈ wsFinalT ansi termW rows o, 0 < x ∧ minColWidth ≤ x := by
  have h1 : ∀ x ∈ ws1T ansi termW rows o, minColWidth ≤ x := by
    intro x hx
    unfold ws1T compressedWidths at hx
    rw [if_pos hrun] at hx
    exact shrinkGo_ge _ _ _ (fairWidths_ge _ _ _) x hx
  intro x hx
  unfold wsFinalT at hx
  by_cases hbump : innerWidthT ansi termW rows o > contentWidthT ansi termW rows o ∧
      0 < (ws1T ansi termW rows o).length
  · rw [if_pos hbump] at hx
    obtain ⟨y, hy, hyx⟩ := bumpLast_mem _ _ x hx
    have h3 := h1 y hy
    unfold minColWidth at h3 ⊢
    omega
  · rw [if_neg hbump] at hx
    have h3 := h1 x hx
    unfold minColWidth at h3 ⊢
    omega

theorem c4_width_floor_witness :
    0 < (wsFinalT false 10 [[(asc "abcdefghij", Value.vstr (asc "0123456789"))]] {}).getD 0 0 ∧
      minColWidth ≤
        (wsFinalT false 10 [[(asc "abcdefghij", Value.vstr (asc "0123456789"))]] {}).getD 0 0 :=
  c4_width_floor false 10 [[(asc "abcdefghij", Value.vstr (asc "0123456789"))]] {}
    (by decide) (by decide)
    ((wsFinalT false 10 [[(asc "abcdefghij", Value.vstr (asc "0123456789"))]] {}).getD 0 0)
    (getD_mem _ 0 (by decide))

/-- Ten rows with one 17-display-column-wide numeric column, as in the
row-cap accounting scenario. -/
def c9rows : List Row :=
  (List.range 10).map (fun i => [(asc "c2345678901234567", Value.vnum (natStr i))])

/-- C9: rendering 10 rows with `maxRows = 3` and `totalRows` unset
reports `... 7 more rows`; with `totalRows = 1000` it reports
`... 997 more rows`; in both runs that text is the seventh emitted line
(the trailer), truncated/padded to the inner width 17. -/
theorem c9_row_cap_accounting :
    infoTextT 120 c9rows { maxRows := some (.fin 3) } = asc "... 7 more rows" ∧
      infoTextT 120 c9rows { maxRows := some (.fin 3), totalRows := some 1000 } =
        asc "... 997 more rows" ∧
      (printTable false 120 c9rows { maxRows := some (.fin 3) }).map
          (fun L => L.getD 6 []) =
        .ok (trailerLineT false (asc "... 7 more rows") 17) ∧
      (printTable false 120 c9rows { maxRows := some (.fin 3), totalRows := some 1000 }).map
          (fun L => L.getD 6 []) =
        .ok (trailerLineT false (asc "... 997 more rows") 17) :=
  ⟨by decide, by decide, rfl, rfl⟩

theorem visRowsT_length (ansi : Bool) (termW : Nat) (rows : List Row) (o : TableOptions) :
    (visRowsT ansi termW rows o).length = (displayRowsT rows o).length := by
  simp [visRowsT, formattedRowsT]

theorem tableLinesT_length (ansi : Bool) (termW : Nat) (rows : List Row) (o : TableOptions)
    (hfc : o.fullContent = false) :
    (tableLinesT ansi termW rows o).length =
      3 + (displayRowsT rows o).length +
        (if infoTextT termW rows o = [] then 1 else 2) := by
  unfold tableLinesT
  simp only [hfc, Bool.false_eq_true, if_false]
  by_cases hinfo : infoTextT termW rows o = [] <;>
    cases htt : titleTruthy o.title <;>
      simp [hinfo, List.length_append, visRowsT_length ansi termW rows o] <;> omega

/-- C10: with `maxRows` omitted the cap defaults to 100 (not the
`Infinity` no-cap sentinel): for every row list longer than 100 rendered
with default options (on a terminal at least 2 columns wide), exactly
the first 100 rows are displayed, the remainder count is
`rows.length - 100`, a trailer is emitted, and the output is exactly
105 lines: top border, header, separator, 100 data lines, trailer,
bottom border. -/
theorem c10_default_cap (ansi : Bool) (termW : Nat) (rows : List Row)
    (hlen : 100 < rows.length) (hterm : 2 ≤ termW) :
    displayRowsT rows {} = rows.take 100 ∧
      (displayRowsT rows {}).length = 100 ∧
      truncatedRowsT rows {} = rows.length - 100 ∧
      infoTextT termW rows {} ≠ [] ∧
      ∃ L, printTable ansi termW rows {} = .ok L ∧ L.length = 105 := by
  have h1 : displayRowsT rows {} = rows.take 100 := rfl
  have h2 : (displayRowsT rows {}).length = 100 := by
    rw [h1, List.length_take]
    omega
  have h3 : truncatedRowsT rows {} = rows.length - 100 := by
    unfold truncatedRowsT
    rw [h2]
    simp only [Option.getD]
    rw [if_pos (by omega)]
  have htr : 0 < truncatedRowsT rows {} := by omega
  have h4 : infoTextT termW rows {} ≠ [] := by
    unfold infoTextT
    rw [if_pos (Or.inl htr)]
    intro hnil
    rw [List.append_eq_nil] at hnil
    exact absurd hnil.1 (by decide)
  refine ⟨h1, h2, h3, h4, ?_⟩
  have hrows : rows ≠ [] := by
    intro h
    rw [h] at hlen
    simp at hlen
  have hdr : ¬ displayRowsT rows {} = [] := by
    intro h
    rw [h] at h2
    simp at h2
  have hti := totalInner_nonneg ansi termW rows {} hterm
  have hcond : ¬ (infoTextT termW rows {} ≠ [] ∧
      totalInnerWidthT ansi termW rows {} < 0) := by
    intro hc
    omega
  refine ⟨tableLinesT ansi termW rows {}, ?_, ?_⟩
  · unfold printTable
    rw [if_neg hrows, if_neg hdr, if_neg hcond]
  · rw [tableLinesT_length ansi termW rows {} rfl, h2, if_neg h4]

theorem c10_default_cap_witness :
    displayRowsT ((List.range 101).map (fun i => [(asc "a", Value.vnum (natStr i))])) {} =
        ((List.range 101).map (fun i => [(asc "a", Value.vnum (natStr i))])).take 100 ∧
      (displayRowsT ((List.range 101).map (fun i => [(asc "a", Value.vnum (natStr i))])) {}).length = 100 ∧
      truncatedRowsT ((List.range 101).map (fun i => [(asc "a", Value.vnum (natStr i))])) {} =
        ((List.range 101).map (fun i => [(asc "a", Value.vnum (natStr i))])).length - 100 ∧
      infoTextT 120 ((List.range 101).map (fun i => [(asc "a", Value.vnum (natStr i))])) {} ≠ [] ∧
      ∃ L, printTable false 120 ((List.range 101).map (fun i => [(asc "a", Value.vnum (natStr i))])) {} =
          .ok L ∧ L.length = 105 :=
  c10_default_cap false 120 ((List.range 101).map (fun i => [(asc "a", Value.vnum (natStr i))]))
    (by decide) (by decide)

theorem joinSep_width (sep : JsStr) :
    ∀ xs : List JsStr, xs ≠ [] →
      strWidth (joinSep sep xs) + strWidth sep =
        (xs.map strWidth).sum + xs.length * strWidth sep := by
  intro xs
  induction xs with
  | nil => intro h; exact absurd rfl h
  | cons x rest ih =>
    intro _
    cases rest with
    | nil => simp [joinSep]
    | cons y rest2 =>
      have hne : (y :: rest2 : List JsStr) ≠ [] := by simp
      have h2 := ih hne
      simp only [joinSep, strWidth_append, List.map_cons, List.sum_cons, List.length_cons]
      simp only [joinSep, List.map_cons, List.sum_cons, List.length_cons] at h2
      ring_nf
      ring_nf at h2
      omega

theorem joinSep_length {α : Type} (sep : List α) :
    ∀ xs : List (List α), xs ≠ [] →
      (joinSep sep xs).length + sep.length =
        (xs.map List.length).sum + xs.length * sep.length := by
  intro xs
  induction xs with
  | nil => intro h; exact absurd rfl h
  | cons x rest ih =>
    intro _
    cases rest with
    | nil => simp [joinSep]
    | cons y rest2 =>
      have hne : (y :: rest2 : List (List α)) ≠ [] := by simp
      have h2 := ih hne
      simp only [joinSep, List.length_append, List.map_cons, List.sum_cons, List.length_cons]
      simp only [joinSep, List.map_cons, List.sum_cons, List.length_cons] at h2
      ring_nf
      ring_nf at h2
      omega

theorem joinSep_mem {α : Type} (sep : List α) :
    ∀ (xs : List (List α)) (a : α), a ∈ joinSep sep xs →
      a ∈ sep ∨ ∃ x ∈ xs, a ∈ x := by
  intro xs
  induction xs with
  | nil => intro a ha; simp [joinSep] at ha
  | cons x rest ih =>
    intro a ha
    cases rest with
    | nil =>
      simp only [joinSep] at ha
      exact Or.inr ⟨x, by simp, ha⟩
    | cons y rest2 =>
      simp only [joinSep, List.mem_append] at ha
      rcases ha with (h | h) | h
      · exact Or.inr ⟨x, by simp, h⟩
      · exact Or.inl h
      · rcases ih a h with h2 | ⟨z, hz, haz⟩
        · exact Or.inl h2
        · exact Or.inr ⟨z, List.mem_cons_of_mem x hz, haz⟩

theorem sum_range_getD (l : List Nat) :
    ((List.range l.length).map (fun i => l.getD i 0)).sum = l.sum := by
  induction l with
  | nil => rfl
  | cons x t ih =>
    have h : List.range (x :: t).length = 0 :: (List.range t.length).map Nat.succ := by
      simpa using List.range_succ_eq_map t.length
    rw [h]
    simp only [List.map_cons, List.map_map, List.sum_cons, List.getD_cons_zero]
    have h2 : (List.range t.length).map ((fun i => (x :: t).getD i 0) ∘ Nat.succ) =
        (List.range t.length).map (fun i => t.getD i 0) := by
      refine List.map_congr_left ?_
      intro i _
      simp [Function.comp, List.getD_cons_succ]
    rw [h2, ih]

theorem padRight_width (s : JsStr) (w : Nat) (h : strWidth s ≤ w) :
    strWidth (padRight s w) = w := by
  unfold padRight
  by_cases hle : w ≤ strWidth s
  · rw [if_pos hle]; omega
  · rw [if_neg hle]
    simp [spaceG]
    omega

theorem padLeft_width (s : JsStr) (w : Nat) (h : strWidth s ≤ w) :
    strWidth (padLeft s w) = w := by
  unfold padLeft
  by_cases hle : w ≤ strWidth s
  · rw [if_pos hle]; omega
  · rw [if_neg hle]
    simp [spaceG]
    omega

theorem cellOf_width (ansi b : Bool) (s : JsStr) (w : Nat)
    (h : strWidth (truncate ansi s w) ≤ w) :
    strWidth (cellOf ansi b s w) = w := by
  unfold cellOf
  cases b with
  | false => simpa using padRight_width _ w h
  | true => simpa using padLeft_width _ w h

/-- `truncate` fits the column when one column is available or the text
already fits. -/
theorem truncate_fits (ansi : Bool) (s : JsStr) (w : Nat)
    (h : 1 ≤ w ∨ strWidth s ≤ w) : strWidth (truncate ansi s w) ≤ w := by
  rcases h with h | h
  · exact truncate_width_le ansi s h
  · rw [truncate_of_le ansi h]; exact h

@[simp] theorem strWidth_dimS (ansi : Bool) : strWidth (dimS ansi) = 0 := by
  cases ansi <;> rfl

@[simp] theorem strWidth_boldS (ansi : Bool) : strWidth (boldS ansi) = 0 := by
  cases ansi <;> rfl

@[simp] theorem strWidth_resetS (ansi : Bool) : strWidth (resetS ansi) = 0 := by
  cases ansi <;> rfl

@[simp] theorem strWidth_cellSep (ansi : Bool) : strWidth (cellSep ansi) = 3 := by
  cases ansi <;> rfl

@[simp] theorem strWidth_hRun (w : Nat) : strWidth (hRun w) = w := by
  simp [hRun, gH]

@[simp] theorem length_hRun (w : Nat) : (hRun w).length = w := by
  simp [hRun]

/-- Width of a bordered row of cells whose widths match the column
widths exactly. -/
@[simp] theorem gTL_w : gTL.w = 1 := rfl

@[simp] theorem gTR_w : gTR.w = 1 := rfl

@[simp] theorem gBL_w : gBL.w = 1 := rfl

@[simp] theorem gBR_w : gBR.w = 1 := rfl

@[simp] theorem gH_w : gH.w = 1 := rfl

@[simp] theorem gV_w : gV.w = 1 := rfl

@[simp] theorem gHL_w : gHL.w = 1 := rfl

@[simp] theorem gHR_w : gHR.w = 1 := rfl

@[simp] theorem gHC_w : gHC.w = 1 := rfl

@[simp] theorem gTC_w : gTC.w = 1 := rfl

@[simp] theorem gBC_w : gBC.w = 1 := rfl

@[simp] theorem spaceG_w : spaceG.w = 1 := rfl

theorem rowLine_width (ansi : Bool) (k : Nat) (f : Nat → JsStr) (ws : List Nat)
    (hws : ws.length = k) (hk : 1 ≤ k)
    (hf : ∀ i, i < k → strWidth (f i) = ws.getD i 0) :
    strWidth (rowLine ansi ((List.range k).map f)) = ws.sum + 3 * (k - 1) + 4 := by
  have hne : (List.range k).map f ≠ [] := by
    simp [List.map_eq_nil_iff, List.range_eq_nil]
    omega
  have hj := joinSep_width (cellSep ansi) ((List.range k).map f) hne
  have hsum : (((List.range k).map f).map strWidth).sum = ws.sum := by
    rw [List.map_map]
    have : (List.range k).map (strWidth ∘ f) = (List.range k).map (fun i => ws.getD i 0) := by
      refine List.map_congr_left ?_
      intro i hi
      exact hf i (List.mem_range.1 hi)
    rw [this, ← hws, sum_range_getD]
  rw [hsum] at hj
  simp only [strWidth_cellSep, List.length_map, List.length_range] at hj
  unfold rowLine
  simp only [strWidth_append, strWidth_dimS, strWidth_resetS, strWidth_cons, strWidth_nil,
    gV_w, spaceG_w]
  omega

/-- Width of the bare top border. -/
theorem fullTopBorder_width (ws : List Nat) (hk : 1 ≤ ws.length) :
    strWidth (fullTopBorderT ws) = ws.sum + 3 * (ws.length - 1) + 4 := by
  have hne : ws.map hRun ≠ [] := by
    simp [List.map_eq_nil_iff]
    intro h
    rw [h] at hk
    simp at hk
  have hj := joinSep_width [gH, gTC, gH] (ws.map hRun) hne
  have hsep : strWidth [gH, gTC, gH] = 3 := rfl
  have hsum : ((ws.map hRun).map strWidth).sum = ws.sum := by
    rw [List.map_map]
    have : ws.map (strWidth ∘ hRun) = ws.map id := by
      refine List.map_congr_left ?_
      intro w _
      simp [Function.comp]
    simp [this]
  rw [hsum, hsep] at hj
  simp only [List.length_map] at hj
  unfold fullTopBorderT
  simp only [strWidth_append, strWidth_cons, strWidth_nil, gTL_w, gH_w, gTR_w]
  omega

theorem plainTopLine_width (ansi : Bool) (ws : List Nat) (hk : 1 ≤ ws.length) :
    strWidth (plainTopLine ansi ws) = ws.sum + 3 * (ws.length - 1) + 4 := by
  unfold plainTopLine
  simp only [strWidth_append, strWidth_dimS, strWidth_resetS]
  rw [fullTopBorder_width ws hk]
  omega

theorem sepLineT_width (ansi : Bool) (ws : List Nat) (hk : 1 ≤ ws.length) :
    strWidth (sepLineT ansi ws) = ws.sum + 3 * (ws.length - 1) + 4 := by
  have hne : ws.map hRun ≠ [] := by
    simp [List.map_eq_nil_iff]
    intro h
    rw [h] at hk
    simp at hk
  have hj := joinSep_width [gH, gHC, gH] (ws.map hRun) hne
  have hsep : strWidth [gH, gHC, gH] = 3 := rfl
  have hsum : ((ws.map hRun).map strWidth).sum = ws.sum := by
    rw [List.map_map]
    have : ws.map (strWidth ∘ hRun) = ws.map id := by
      refine List.map_congr_left ?_
      intro w _
      simp [Function.comp]
    simp [this]
  rw [hsum, hsep] at hj
  simp only [List.length_map] at hj
  unfold sepLineT
  simp only [strWidth_append, strWidth_dimS, strWidth_resetS, strWidth_cons, strWidth_nil,
    gHL_w, gH_w, gHR_w]
  omega

theorem bottomLineT_width (ansi : Bool) (ws : List Nat) (hk : 1 ≤ ws.length) :
    strWidth (bottomLineT ansi ws) = ws.sum + 3 * (ws.length - 1) + 4 := by
  have hne : ws.map hRun ≠ [] := by
    simp [List.map_eq_nil_iff]
    intro h
    rw [h] at hk
    simp at hk
  have hj := joinSep_width [gH, gBC, gH] (ws.map hRun) hne
  have hsep : strWidth [gH, gBC, gH] = 3 := rfl
  have hsum : ((ws.map hRun).map strWidth).sum = ws.sum := by
    rw [List.map_map]
    have : ws.map (strWidth ∘ hRun) = ws.map id := by
      refine List.map_congr_left ?_
      intro w _
      simp [Function.comp]
    simp [this]
  rw [hsum, hsep] at hj
  simp only [List.length_map] at hj
  unfold bottomLineT
  simp only [strWidth_append, strWidth_dimS, strWidth_resetS, strWidth_cons, strWidth_nil,
    gBL_w, gH_w, gBR_w]
  omega

theorem ones_strWidth (l : JsStr) (h : ∀ g ∈ l, g.w = 1) : strWidth l = l.length := by
  induction l with
  | nil => rfl
  | cons g t ih =>
    have hg : g.w = 1 := h g (List.mem_cons_self g t)
    have ht := ih (fun x hx => h x (List.mem_cons_of_mem g hx))
    simp [hg, ht]
    omega

theorem hRun_ones (w : Nat) : ∀ g ∈ hRun w, g.w = 1 := by
  intro g hg
  rw [List.eq_of_mem_replicate hg]
  rfl

theorem fullTopBorder_ones (ws : List Nat) : ∀ g ∈ fullTopBorderT ws, g.w = 1 := by
  intro g hg
  unfold fullTopBorderT at hg
  rcases List.mem_append.1 hg with h | h
  · rcases List.mem_append.1 h with h2 | h2
    · rcases List.mem_cons.1 h2 with h3 | h3
      · rw [h3]; rfl
      · rw [List.mem_singleton.1 h3]; rfl
    · rcases joinSep_mem _ _ _ h2 with h3 | ⟨x, hx, hgx⟩
      · rcases List.mem_cons.1 h3 with h4 | h4
        · rw [h4]; rfl
        · rcases List.mem_cons.1 h4 with h5 | h5
          · rw [h5]; rfl
          · rw [List.mem_singleton.1 h5]; rfl
      · obtain ⟨w, _, hw⟩ := List.mem_map.1 hx
        rw [← hw] at hgx
        exact hRun_ones w g hgx
  · rcases List.mem_cons.1 h with h3 | h3
    · rw [h3]; rfl
    · rw [List.mem_singleton.1 h3]; rfl

theorem fullTopBorder_length (ws : List Nat) (hk : 1 ≤ ws.length) :
    (fullTopBorderT ws).length = ws.sum + 3 * (ws.length - 1) + 4 := by
  rw [← ones_strWidth _ (fullTopBorder_ones ws)]
  exact fullTopBorder_width ws hk

theorem titleTopLine_width (ansi : Bool) (ws : List Nat) (t : JsStr)
    (hk : 1 ≤ ws.length)
    (htw : strWidth t + 4 ≤ ws.sum + 3 * (ws.length - 1) + 4) :
    strWidth (titleTopLine ansi ws t) = ws.sum + 3 * (ws.length - 1) + 4 := by
  have hlen := fullTopBorder_length ws hk
  have hones := fullTopBorder_ones ws
  have htake : strWidth ((fullTopBorderT ws).take 2) = 2 := by
    rw [ones_strWidth _ (fun g hg => hones g (List.mem_of_mem_take hg))]
    rw [List.length_take, hlen]
    omega
  have hdrop : ∀ m, strWidth ((fullTopBorderT ws).drop m) =
      (fullTopBorderT ws).length - m := by
    intro m
    rw [ones_strWidth _ (fun g hg => hones g (List.mem_of_mem_drop hg)), List.length_drop]
  unfold titleTopLine
  simp only [strWidth_append, strWidth_dimS, strWidth_resetS, strWidth_boldS,
    strWidth_cons, strWidth_nil, spaceG_w]
  rw [htake, hdrop, hlen]
  omega

theorem trailerLineT_width (ansi : Bool) (info : JsStr) (innerW : Nat)
    (h : strWidth (truncate ansi info innerW) ≤ innerW) :
    strWidth (trailerLineT ansi info innerW) = innerW + 4 := by
  unfold trailerLineT
  simp only [strWidth_append, strWidth_dimS, strWidth_resetS, strWidth_cons,
    strWidth_nil, gV_w, spaceG_w]
  rw [padRight_width _ _ h]
  omega

theorem bottomTrailerT_width (ansi : Bool) (n : Nat) :
    strWidth (bottomTrailerT ansi n) = n + 2 := by
  unfold bottomTrailerT
  simp only [strWidth_append, strWidth_dimS, strWidth_resetS, strWidth_cons,
    strWidth_nil, gBL_w, gBR_w, strWidth_replicate, gH_w]
  omega

theorem bumpLast_sum (d : Nat) :
    ∀ ws : List Nat, ws ≠ [] → (bumpLast d ws).sum = ws.sum + d := by
  intro ws
  induction ws with
  | nil => intro h; exact absurd rfl h
  | cons w rest ih =>
    intro _
    cases rest with
    | nil => simp [bumpLast]
    | cons v rest2 =>
      have h2 := ih (by simp)
      simp only [bumpLast, List.sum_cons]
      simp only [List.sum_cons] at h2
      omega

theorem bumpLast_length (d : Nat) :
    ∀ ws : List Nat, (bumpLast d ws).length = ws.length := by
  intro ws
  induction ws with
  | nil => rfl
  | cons w rest ih =>
    cases rest with
    | nil => rfl
    | cons v rest2 => simpa [bumpLast] using ih

theorem bumpLast_getD_ge (d : Nat) :
    ∀ (ws : List Nat) (i : Nat), ws.getD i 0 ≤ (bumpLast d ws).getD i 0 := by
  intro ws
  induction ws with
  | nil => intro i; simp [bumpLast]
  | cons w rest ih =>
    intro i
    cases rest with
    | nil =>
      cases i with
      | zero => simp [bumpLast]
      | succ i => simp [bumpLast, List.getD]
    | cons v rest2 =>
      cases i with
      | zero => simp [bumpLast]
      | succ i =>
        simp only [bumpLast, List.getD_cons_succ]
        exact ih i

theorem fairWidths_length (cols : List JsStr) (ws : List Nat) (avail : Int) :
    (fairWidths cols ws avail).length = ws.length := by
  simp [fairWidths]

theorem shrinkGo_length (avail : Int) :
    ∀ fuel ws, (shrinkGo avail fuel ws).length = ws.length := by
  intro fuel
  induction fuel with
  | zero => intro ws; rfl
  | succ n ih =>
    intro ws
    by_cases hg : ((ws.sum : Int) > avail) ∧ ws.any (fun w => minColWidth < w) = true
    · have : shrinkGo avail (n + 1) ws = shrinkGo avail n (decAt ws (firstMaxIdx ws)) := by
        simp only [shrinkGo, hg, and_self, if_pos]
      rw [this, ih, decAt_length]
    · simp only [shrinkGo, if_neg hg]

theorem compressedWidths_length (cols : List JsStr) (ws : List Nat) (avail : Int) :
    (compressedWidths cols ws avail).length = ws.length := by
  unfold compressedWidths shrinkLoop
  by_cases h : (ws.sum : Int) > avail
  · rw [if_pos h, shrinkGo_length, fairWidths_length]
  · rw [if_neg h]

theorem colWidthsT_length (ansi : Bool) (rows : List Row) (o : TableOptions) :
    (colWidthsT ansi rows o).length = (allColumnsT rows o).length := by
  simp [colWidthsT]

theorem visibleCount_le (termW : Nat) (rows : List Row) (o : TableOptions) :
    visibleCountT termW rows o ≤ (allColumnsT rows o).length :=
  hideGo_le termW _ _

theorem ws0T_length (ansi : Bool) (termW : Nat) (rows : List Row) (o : TableOptions) :
    (ws0T ansi termW rows o).length = visibleCountT termW rows o := by
  unfold ws0T
  rw [List.length_take, colWidthsT_length]
  exact min_eq_left (visibleCount_le termW rows o)

theorem ws1T_length (ansi : Bool) (termW : Nat) (rows : List Row) (o : TableOptions) :
    (ws1T ansi termW rows o).length = visibleCountT termW rows o := by
  unfold ws1T
  rw [compressedWidths_length, ws0T_length]

theorem wsFinalT_length (ansi : Bool) (termW : Nat) (rows : List Row) (o : TableOptions) :
    (wsFinalT ansi termW rows o).length = visibleCountT termW rows o := by
  unfold wsFinalT
  by_cases h : innerWidthT ansi termW rows o > contentWidthT ansi termW rows o ∧
      0 < (ws1T ansi termW rows o).length
  · rw [if_pos h, bumpLast_length, ws1T_length]
  · rw [if_neg h, ws1T_length]

theorem foldl_max_ge_init : ∀ (l : List Nat) (init : Nat), init ≤ l.foldl max init := by
  intro l
  induction l with
  | nil => intro init; exact le_refl _
  | cons x t ih =>
    intro init
    simp only [List.foldl_cons]
    exact le_trans (le_max_left init x) (ih (max init x))

theorem foldl_max_ge_mem : ∀ (l : List Nat) (init x : Nat), x ∈ l → x ≤ l.foldl max init := by
  intro l
  induction l with
  | nil => intro init x hx; simp at hx
  | cons y t ih =>
    intro init x hx
    simp only [List.foldl_cons]
    rcases List.mem_cons.1 hx with h | h
    · rw [h]
      exact le_trans (le_max_right init y) (foldl_max_ge_init t _)
    · exact ih _ x h

theorem getD_take {α : Type} (l : List α) (d : α) :
    ∀ k i, i < k → (l.take k).getD i d = l.getD i d := by
  induction l with
  | nil => intro k i _; simp
  | cons x t ih =>
    intro k i hik
    cases k with
    | zero => omega
    | succ k =>
      cases i with
      | zero => simp
      | succ i =>
        simp only [List.take_succ_cons, List.getD_cons_succ]
        exact ih k i (by omega)

theorem columnsT_length (termW : Nat) (rows : List Row) (o : TableOptions) :
    (columnsT termW rows o).length = visibleCountT termW rows o := by
  unfold columnsT
  rw [List.length_take]
  exact min_eq_left (visibleCount_le termW rows o)

theorem columnsT_getD (termW : Nat) (rows : List Row) (o : TableOptions) (i : Nat)
    (hi : i < visibleCountT termW rows o) :
    (columnsT termW rows o).getD i [] = (allColumnsT rows o).getD i [] :=
  getD_take _ [] _ i hi

theorem ws0T_getD (ansi : Bool) (termW : Nat) (rows : List Row) (o : TableOptions) (i : Nat)
    (hi : i < visibleCountT termW rows o) :
    (ws0T ansi termW rows o).getD i 0 = (colWidthsT ansi rows o).getD i 0 :=
  getD_take _ 0 _ i hi

theorem colWidthsT_ge_header (ansi : Bool) (rows : List Row) (o : TableOptions) (i : Nat)
    (hi : i < (allColumnsT rows o).length) :
    strWidth ((allColumnsT rows o).getD i []) ≤ (colWidthsT ansi rows o).getD i 0 := by
  unfold colWidthsT
  rw [getD_range_map _ _ _ i hi]
  exact foldl_max_ge_init _ _

theorem colWidthsT_ge_cell (ansi : Bool) (rows : List Row) (o : TableOptions) (i : Nat)
    (hi : i < (allColumnsT rows o).length) (r : List JsStr)
    (hr : r ∈ formattedRowsT ansi rows o) :
    strWidth (r.getD i []) ≤ (colWidthsT ansi rows o).getD i 0 := by
  unfold colWidthsT
  rw [getD_range_map _ _ _ i hi]
  exact foldl_max_ge_mem _ _ _ (List.mem_map_of_mem _ hr)

theorem escapeNewlines_no10 (s : JsStr) : ∀ g ∈ escapeNewlines s, g.code ≠ 10 := by
  induction s with
  | nil => intro g hg; simp [escapeNewlines] at hg
  | cons x t ih =>
    intro g hg
    unfold escapeNewlines at hg
    rcases List.mem_append.1 hg with h | h
    · by_cases hx : x.code = 10
      · rw [if_pos hx] at h
        rcases List.mem_cons.1 h with h2 | h2
        · rw [h2]; decide
        · rw [List.mem_singleton.1 h2]; decide
      · rw [if_neg hx] at h
        rw [List.mem_singleton.1 h]
        exact hx
    · exact ih g h

theorem getD_map_no10 {β : Type} (l : List β) (h : β → JsStr) (i : Nat) :
    ∀ g ∈ (l.map (fun c => escapeNewlines (h c))).getD i [], g.code ≠ 10 := by
  by_cases hi : i < l.length
  · have hlen : i < (l.map (fun c => escapeNewlines (h c))).length := by simpa using hi
    rw [List.getD_eq_getElem _ _ hlen]
    intro g hg
    rw [List.getElem_map] at hg
    exact escapeNewlines_no10 _ g hg
  · rw [List.getD_eq_default _ _ (by simpa using Nat.le_of_not_lt hi)]
    intro g hg
    simp at hg

theorem formattedRowsT_length_entry (ansi : Bool) (rows : List Row) (o : TableOptions)
    (r : List JsStr) (hr : r ∈ formattedRowsT ansi rows o) :
    r.length = (allColumnsT rows o).length := by
  obtain ⟨r0, _, hmap⟩ := List.mem_map.1 hr
  rw [← hmap]
  simp

theorem formattedRowsT_no10 (ansi : Bool) (rows : List Row) (o : TableOptions)
    (r : List JsStr) (hr : r ∈ formattedRowsT ansi rows o) (i : Nat) :
    ∀ g ∈ r.getD i [], g.code ≠ 10 := by
  obtain ⟨r0, _, hmap⟩ := List.mem_map.1 hr
  rw [← hmap]
  exact getD_map_no10 _ _ i

theorem ws1T_ge_floor (ansi : Bool) (termW : Nat) (rows : List Row) (o : TableOptions)
    (hrun : ((ws0T ansi termW rows o).sum : Int) > availT termW rows o) :
    ∀ x ∈ ws1T ansi termW rows o, minColWidth ≤ x := by
  intro x hx
  unfold ws1T compressedWidths at hx
  rw [if_pos hrun] at hx
  exact shrinkGo_ge _ _ _ (fairWidths_ge _ _ _) x hx

theorem wsFinal_ge_ws1 (ansi : Bool) (termW : Nat) (rows : List Row) (o : TableOptions)
    (i : Nat) :
    (ws1T ansi termW rows o).getD i 0 ≤ (wsFinalT ansi termW rows o).getD i 0 := by
  unfold wsFinalT
  by_cases h : innerWidthT ansi termW rows o > contentWidthT ansi termW rows o ∧
      0 < (ws1T ansi termW rows o).length
  · rw [if_pos h]
    exact bumpLast_getD_ge _ _ i
  · rw [if_neg h]

theorem wsFinal_dichotomy (ansi : Bool) (termW : Nat) (rows : List Row) (o : TableOptions)
    (i : Nat) (hi : i < visibleCountT termW rows o) :
    minColWidth ≤ (wsFinalT ansi termW rows o).getD i 0 ∨
      (ws0T ansi termW rows o).getD i 0 ≤ (wsFinalT ansi termW rows o).getD i 0 := by
  by_cases hrun : ((ws0T ansi termW rows o).sum : Int) > availT termW rows o
  · left
    have hlen : i < (ws1T ansi termW rows o).length := by
      rw [ws1T_length]
      exact hi
    exact le_trans (ws1T_ge_floor ansi termW rows o hrun _ (getD_mem _ i hlen))
      (wsFinal_ge_ws1 ansi termW rows o i)
  · right
    have heq : ws1T ansi termW rows o = ws0T ansi termW rows o := by
      unfold ws1T compressedWidths
      rw [if_neg hrun]
    rw [← heq]
    exact wsFinal_ge_ws1 ansi termW rows o i

theorem wsFinal_cell_fits (ansi : Bool) (termW : Nat) (rows : List Row) (o : TableOptions)
    (i : Nat) (hi : i < visibleCountT termW rows o) (s : JsStr)
    (hs : strWidth s ≤ (ws0T ansi termW rows o).getD i 0) :
    strWidth (truncate ansi s ((wsFinalT ansi termW rows o).getD i 0)) ≤
      (wsFinalT ansi termW rows o).getD i 0 := by
  rcases wsFinal_dichotomy ansi termW rows o i hi with h | h
  · refine truncate_fits _ _ _ (Or.inl ?_)
    unfold minColWidth at h
    omega
  · exact truncate_fits _ _ _ (Or.inr (le_trans hs h))

theorem wsFinal_sum (ansi : Bool) (termW : Nat) (rows : List Row) (o : TableOptions)
    (hcols : 1 ≤ (allColumnsT rows o).length)
    (hfit : contentWidthT ansi termW rows o ≤ (termW : Int) - 4)
    (htfit : ((titleWidthT o : Nat) : Int) ≤ (termW : Int) - 4) :
    ((wsFinalT ansi termW rows o).sum : Int) +
        3 * ((visibleCountT termW rows o : Int) - 1) =
      innerWidthT ansi termW rows o := by
  have hk : 1 ≤ visibleCountT termW rows o := hideGo_pos termW _ _ hcols
  have hiw : innerWidthT ansi termW rows o =
      max (contentWidthT ansi termW rows o) ((titleWidthT o : Nat) : Int) := by
    unfold innerWidthT
    exact min_eq_left (max_le hfit htfit)
  have hge : contentWidthT ansi termW rows o ≤ innerWidthT ansi termW rows o := by
    rw [hiw]
    exact le_max_left _ _
  have hcw : contentWidthT ansi termW rows o =
      ((ws1T ansi termW rows o).sum : Int) +
        ((visibleCountT termW rows o : Int) - 1) * 3 := rfl
  unfold wsFinalT
  by_cases hb : innerWidthT ansi termW rows o > contentWidthT ansi termW rows o ∧
      0 < (ws1T ansi termW rows o).length
  · rw [if_pos hb]
    have hne : ws1T ansi termW rows o ≠ [] := by
      intro h
      rw [h] at hb
      simp at hb
    rw [bumpLast_sum _ _ hne]
    have hnn : (0 : Int) ≤ innerWidthT ansi termW rows o - contentWidthT ansi termW rows o := by
      have := hb.1
      omega
    have htn := Int.toNat_of_nonneg hnn
    rw [Nat.cast_add, htn]
    omega
  · rw [if_neg hb]
    have hlen0 : 0 < (ws1T ansi termW rows o).length := by
      rw [ws1T_length]
      omega
    have hle : ¬ innerWidthT ansi termW rows o > contentWidthT ansi termW rows o :=
      fun h => hb ⟨h, hlen0⟩
    have heq : innerWidthT ansi termW rows o = contentWidthT ansi termW rows o :=
      le_antisymm (not_lt.1 hle) hge
    omega

theorem headerLineT_width (ansi : Bool) (termW : Nat) (rows : List Row) (o : TableOptions)
    (hcols : 1 ≤ (allColumnsT rows o).length) :
    strWidth (headerLineT ansi (columnsT termW rows o) (wsFinalT ansi termW rows o)
        (visNumT termW rows o)) =
      (wsFinalT ansi termW rows o).sum + 3 * (visibleCountT termW rows o - 1) + 4 := by
  have hk : 1 ≤ visibleCountT termW rows o := hideGo_pos termW _ _ hcols
  unfold headerLineT
  rw [columnsT_length]
  refine rowLine_width ansi _ _ _ (wsFinalT_length ansi termW rows o) hk ?_
  intro i hi
  refine cellOf_width ansi _ _ _ ?_
  have hin : i < (allColumnsT rows o).length :=
    lt_of_lt_of_le hi (visibleCount_le termW rows o)
  refine wsFinal_cell_fits ansi termW rows o i hi _ ?_
  rw [columnsT_getD termW rows o i hi, ws0T_getD ansi termW rows o i hi]
  exact colWidthsT_ge_header ansi rows o i hin

theorem visRow_length (ansi : Bool) (termW : Nat) (rows : List Row) (o : TableOptions)
    (r : List JsStr) (hr : r ∈ visRowsT ansi termW rows o) :
    r.length = visibleCountT termW rows o ∧
      ∃ r0 ∈ formattedRowsT ansi rows o, r = r0.take (visibleCountT termW rows o) := by
  obtain ⟨r0, hr0, hmap⟩ := List.mem_map.1 hr
  have hr0len := formattedRowsT_length_entry ansi rows o r0 hr0
  refine ⟨?_, r0, hr0, hmap.symm⟩
  rw [← hmap, List.length_take, hr0len]
  exact min_eq_left (visibleCount_le termW rows o)

theorem dataLineT_width (ansi : Bool) (termW : Nat) (rows : List Row) (o : TableOptions)
    (hcols : 1 ≤ (allColumnsT rows o).length) (r : List JsStr)
    (hr : r ∈ visRowsT ansi termW rows o) :
    strWidth (dataLineT ansi r (wsFinalT ansi termW rows o) (visNumT termW rows o)) =
      (wsFinalT ansi termW rows o).sum + 3 * (visibleCountT termW rows o - 1) + 4 := by
  have hk : 1 ≤ visibleCountT termW rows o := hideGo_pos termW _ _ hcols
  obtain ⟨hrlen, r0, hr0, hmap⟩ := visRow_length ansi termW rows o r hr
  unfold dataLineT
  rw [hrlen]
  refine rowLine_width ansi _ _ _ (wsFinalT_length ansi termW rows o) hk ?_
  intro i hi
  refine cellOf_width ansi _ _ _ ?_
  have hin : i < (allColumnsT rows o).length :=
    lt_of_lt_of_le hi (visibleCount_le termW rows o)
  refine wsFinal_cell_fits ansi termW rows o i hi _ ?_
  have hgetD : r.getD i [] = r0.getD i [] := by
    rw [hmap]
    exact getD_take _ [] _ i hi
  rw [hgetD, ws0T_getD ansi termW rows o i hi]
  exact colWidthsT_ge_cell ansi rows o i hin r0 hr0

theorem fullRowLines_width (ansi : Bool) (termW : Nat) (rows : List Row) (o : TableOptions)
    (hcols : 1 ≤ (allColumnsT rows o).length) (r : List JsStr)
    (hr : r ∈ visRowsT ansi termW rows o) :
    ∀ l ∈ fullRowLines ansi r (wsFinalT ansi termW rows o) (visNumT termW rows o),
      strWidth l =
        (wsFinalT ansi termW rows o).sum + 3 * (visibleCountT termW rows o - 1) + 4 := by
  have hk : 1 ≤ visibleCountT termW rows o := hideGo_pos termW _ _ hcols
  obtain ⟨hrlen, r0, hr0, hmap⟩ := visRow_length ansi termW rows o r hr
  intro l hl
  simp only [fullRowLines] at hl
  obtain ⟨li, _, hline⟩ := List.mem_map.1 hl
  rw [← hline, hrlen]
  refine rowLine_width ansi _ _ _ (wsFinalT_length ansi termW rows o) hk ?_
  intro i hi
  refine cellOf_width ansi _ _ _ ?_
  have hin : i < (allColumnsT rows o).length :=
    lt_of_lt_of_le hi (visibleCount_le termW rows o)
  rw [hrlen] at *
  rw [getD_range_map _ _ _ i hi]
  rcases wsFinal_dichotomy ansi termW rows o i hi with hcase | hcase
  · refine truncate_fits _ _ _ (Or.inl ?_)
    unfold minColWidth at hcase
    omega
  · have hgetD : r.getD i [] = r0.getD i [] := by
      rw [hmap]
      exact getD_take _ [] _ i hi
    have hcellw : strWidth (r.getD i []) ≤ (wsFinalT ansi termW rows o).getD i 0 := by
      refine le_trans ?_ hcase
      rw [hgetD, ws0T_getD ansi termW rows o i hi]
      exact colWidthsT_ge_cell ansi rows o i hin r0 hr0
    have hno10 : ∀ g ∈ r.getD i [], g.code ≠ 10 := by
      rw [hgetD]
      exact formattedRowsT_no10 ansi rows o r0 hr0 i
    by_cases hli :
        li < (wrapLines (r.getD i []) ((wsFinalT ansi termW rows o).getD i 0)).length
    · have hmem : (wrapLines (r.getD i []) ((wsFinalT ansi termW rows o).getD i 0)).getD li [] ∈
          wrapLines (r.getD i []) ((wsFinalT ansi termW rows o).getD i 0) := by
        rw [List.getD_eq_getElem _ _ hli]
        exact List.getElem_mem _
      exact truncate_fits _ _ _
        (Or.inr (wrapLines_fit _ _ hno10 hcellw _ hmem))
    · rw [List.getD_eq_default _ _ (Nat.le_of_not_lt hli)]
      exact truncate_fits _ _ _ (Or.inr (by simp))

theorem displayRowsT_ne_nil (rows : List Row) (o : TableOptions)
    (hrows : rows ≠ []) (hmax : maxRowsOf o ≠ .fin 0) :
    ¬ displayRowsT rows o = [] := by
  unfold displayRowsT displayRowsOf
  cases hm : maxRowsOf o with
  | inf => simpa using hrows
  | fin n =>
    have hn : n ≠ 0 := fun h => hmax (by rw [hm, h])
    simp only [List.take_eq_nil_iff]
    intro hco
    rcases hco with h | h
    · exact hn h
    · exact hrows h

theorem tableLinesT_mem (ansi : Bool) (termW : Nat) (rows : List Row) (o : TableOptions)
    (l : JsStr) (hl : l ∈ tableLinesT ansi termW rows o) :
    (∃ t, titleTruthy o.title = some t ∧
        l = titleTopLine ansi (wsFinalT ansi termW rows o) t) ∨
      l = plainTopLine ansi (wsFinalT ansi termW rows o) ∨
      l = headerLineT ansi (columnsT termW rows o) (wsFinalT ansi termW rows o)
        (visNumT termW rows o) ∨
      l = sepLineT ansi (wsFinalT ansi termW rows o) ∨
      (∃ r ∈ visRowsT ansi termW rows o,
        l = dataLineT ansi r (wsFinalT ansi termW rows o) (visNumT termW rows o)) ∨
      (∃ r ∈ visRowsT ansi termW rows o,
        l ∈ fullRowLines ansi r (wsFinalT ansi termW rows o) (visNumT termW rows o)) ∨
      (infoTextT termW rows o ≠ [] ∧
        (l = trailerLineT ansi (infoTextT termW rows o)
            (innerWidthT ansi termW rows o).toNat ∨
          l = bottomTrailerT ansi (totalInnerWidthT ansi termW rows o).toNat)) ∨
      l = bottomLineT ansi (wsFinalT ansi termW rows o) := by
  simp only [tableLinesT] at hl
  rcases List.mem_append.1 hl with h1 | h1
  · rcases List.mem_cons.1 h1 with h | h
    · rcases htt : titleTruthy o.title with _ | t
      · rw [htt] at h
        exact Or.inr (Or.inl h)
      · rw [htt] at h
        exact Or.inl ⟨t, rfl, h⟩
    · rcases List.mem_cons.1 h with h2 | h2
      · exact Or.inr (Or.inr (Or.inl h2))
      · rcases List.mem_cons.1 h2 with h3 | h3
        · rw [h3]
          exact Or.inr (Or.inr (Or.inr (Or.inl rfl)))
        · by_cases hfc : o.fullContent = true
          · rw [if_pos hfc] at h3
            unfold fullBodyT at h3
            rcases joinSep_mem _ _ _ h3 with hsep | ⟨x, hx, hlx⟩
            · rw [List.mem_singleton.1 hsep]
              exact Or.inr (Or.inr (Or.inr (Or.inl rfl)))
            · obtain ⟨r, hrmem, hrx⟩ := List.mem_map.1 hx
              rw [← hrx] at hlx
              exact Or.inr (Or.inr (Or.inr (Or.inr (Or.inr (Or.inl ⟨r, hrmem, hlx⟩)))))
          · rw [if_neg hfc] at h3
            obtain ⟨r, hrmem, hrl⟩ := List.mem_map.1 h3
            exact Or.inr (Or.inr (Or.inr (Or.inr (Or.inl ⟨r, hrmem, hrl.symm⟩))))
  · by_cases hinfo : infoTextT termW rows o = []
    · rw [if_pos hinfo] at h1
      rw [List.mem_singleton.1 h1]
      exact Or.inr (Or.inr (Or.inr (Or.inr (Or.inr (Or.inr (Or.inr rfl))))))
    · rw [if_neg hinfo] at h1
      rcases List.mem_cons.1 h1 with h3 | h3
      · exact Or.inr (Or.inr (Or.inr (Or.inr (Or.inr (Or.inr (Or.inl
          ⟨hinfo, Or.inl h3⟩))))))
      · rw [List.mem_singleton.1 h3]
        exact Or.inr (Or.inr (Or.inr (Or.inr (Or.inr (Or.inr (Or.inl
          ⟨hinfo, Or.inr rfl⟩))))))

/-- C1 (amended): the output is rectangular and fits the terminal
provided the layout actually fits: nonempty rows with a nonzero row cap,
at least one column, a final content width within `terminalWidth - 4`, a
title (if any) whose decorated width also fits, and an inner width of at
least 1 whenever a trailer is drawn.  Every emitted line then has
display width exactly `innerWidth + 4 ≤ terminalWidth`.  Without these
provisos the claim is false (see the counterexample: an over-long title
overflows the top border line). -/
theorem c1_rectangular (ansi : Bool) (termW : Nat) (rows : List Row) (o : TableOptions)
    (hrows : rows ≠ [])
    (hmax : maxRowsOf o ≠ .fin 0)
    (hcols : 1 ≤ (allColumnsT rows o).length)
    (hfit : contentWidthT ansi termW rows o ≤ (termW : Int) - 4)
    (htfit : ((titleWidthT o : Nat) : Int) ≤ (termW : Int) - 4)
    (htrail : infoTextT termW rows o = [] ∨ 1 ≤ innerWidthT ansi termW rows o) :
    ∃ L, printTable ansi termW rows o = .ok L ∧
      (∀ l ∈ L, (strWidth l : Int) = innerWidthT ansi termW rows o + 4) ∧
      innerWidthT ansi termW rows o + 4 ≤ (termW : Int) := by
  have hk : 1 ≤ visibleCountT termW rows o := hideGo_pos termW _ _ hcols
  have hsum := wsFinal_sum ansi termW rows o hcols hfit htfit
  have hcast : ((visibleCountT termW rows o - 1 : Nat) : Int) =
      (visibleCountT termW rows o : Int) - 1 := by omega
  have hWint : (((wsFinalT ansi termW rows o).sum +
        3 * (visibleCountT termW rows o - 1) + 4 : Nat) : Int) =
      innerWidthT ansi termW rows o + 4 := by
    rw [Nat.cast_add, Nat.cast_add, Nat.cast_mul, hcast]
    omega
  have hiw0 : 0 ≤ innerWidthT ansi termW rows o := by
    rw [← hsum]
    omega
  have hdr := displayRowsT_ne_nil rows o hrows hmax
  have hcond : ¬ (infoTextT termW rows o ≠ [] ∧
      totalInnerWidthT ansi termW rows o < 0) := by
    intro hc
    have hti : totalInnerWidthT ansi termW rows o =
        innerWidthT ansi termW rows o + 2 := rfl
    omega
  refine ⟨tableLinesT ansi termW rows o, ?_, ?_, ?_⟩
  · unfold printTable
    rw [if_neg hrows, if_neg hdr, if_neg hcond]
  · intro l hl
    have hW : strWidth l = (wsFinalT ansi termW rows o).sum +
        3 * (visibleCountT termW rows o - 1) + 4 := by
      rcases tableLinesT_mem ansi termW rows o l hl with
        ⟨t, htt, hleq⟩ | hleq | hleq | hleq | ⟨r, hr, hleq⟩ | ⟨r, hr, hmem⟩ |
          ⟨hinfo, hor⟩ | hleq
      · rw [hleq]
        have htwW : strWidth t + 4 ≤ (wsFinalT ansi termW rows o).sum +
            3 * (visibleCountT termW rows o - 1) + 4 := by
          have h1 : titleWidthT o = strWidth t + 4 := by
            unfold titleWidthT
            rw [htt]
          have h2 : ((titleWidthT o : Nat) : Int) ≤ innerWidthT ansi termW rows o := by
            unfold innerWidthT
            rw [min_eq_left (max_le hfit htfit)]
            exact le_max_right _ _
          rw [h1] at h2
          omega
        have hres := titleTopLine_width ansi (wsFinalT ansi termW rows o) t
          (by rw [wsFinalT_length]; exact hk)
          (by rw [wsFinalT_length]; exact htwW)
        rw [wsFinalT_length] at hres
        exact hres
      · rw [hleq]
        have hres := plainTopLine_width ansi (wsFinalT ansi termW rows o)
          (by rw [wsFinalT_length]; exact hk)
        rw [wsFinalT_length] at hres
        exact hres
      · rw [hleq]
        exact headerLineT_width ansi termW rows o hcols
      · rw [hleq]
        have hres := sepLineT_width ansi (wsFinalT ansi termW rows o)
          (by rw [wsFinalT_length]; exact hk)
        rw [wsFinalT_length] at hres
        exact hres
      · rw [hleq]
        exact dataLineT_width ansi termW rows o hcols r hr
      · exact fullRowLines_width ansi termW rows o hcols r hr l hmem
      · have hiw1 : 1 ≤ innerWidthT ansi termW rows o := by
          rcases htrail with h | h
          · exact absurd h hinfo
          · exact h
        rcases hor with hleq | hleq
        · rw [hleq]
          have hfits : strWidth (truncate ansi (infoTextT termW rows o)
              (innerWidthT ansi termW rows o).toNat) ≤
                (innerWidthT ansi termW rows o).toNat :=
            truncate_width_le ansi _ (by omega)
          rw [trailerLineT_width ansi _ _ hfits]
          omega
        · rw [hleq]
          rw [bottomTrailerT_width]
          have hti : totalInnerWidthT ansi termW rows o =
              innerWidthT ansi termW rows o + 2 := rfl
          omega
      · rw [hleq]
        have hres := bottomLineT_width ansi (wsFinalT ansi termW rows o)
          (by rw [wsFinalT_length]; exact hk)
        rw [wsFinalT_length] at hres
        exact hres
    rw [hW]
    exact hWint
  · have hle : innerWidthT ansi termW rows o ≤ (termW : Int) - 4 := by
      unfold innerWidthT
      exact min_le_right _ _
    omega

theorem c1_rectangular_witness :
    ∃ L, printTable false 30 [[(asc "a", Value.vstr (asc "x"))]] {} = .ok L ∧
      (∀ l ∈ L, (strWidth l : Int) =
        innerWidthT false 30 [[(asc "a", Value.vstr (asc "x"))]] {} + 4) ∧
      innerWidthT false 30 [[(asc "a", Value.vstr (asc "x"))]] {} + 4 ≤ (30 : Int) :=
  c1_rectangular false 30 [[(asc "a", Value.vstr (asc "x"))]] {}
    (by decide) (by decide) (by decide) (by decide) (by decide) (Or.inl (by decide))

/-- C1: the claim fails as stated: at terminal width 30, one narrow
column and a 30-column-wide title make the title line 34 columns wide
while every other line is 30 — the output is not rectangular and the
title line exceeds the terminal width. -/
theorem c1_counterexample :
    (printTable false 30 [[(asc "a", Value.vstr (asc "x"))]]
        { title := some (asc "tttttttttttttttttttttttttttttt") }).map
      (fun L => L.map strWidth) = .ok [34, 30, 30, 30, 30] ∧ ¬ (34 : Nat) ≤ 30 :=
  ⟨rfl, by decide⟩
